import Mathlib

/-!
Verification of the JointsGalore flat-file record store (src/server.js).

The development shallow-embeds the two collections (users, posts), the
schema normalizer, and every route of the server that mutates them.
JavaScript records whose fields may be missing or malformed are embedded
as `Raw` structures with `Option` fields (`none` models an absent or
wrongly-typed field); normalization produces fully-typed records.
Persistence is modelled explicitly: a route's result is the collection
that ends up stored, and the normalizer's save behaviour is captured by
an explicit list of store writes.
-/

namespace JointsGalore

/-- Comment record (always created fully-formed by the comment route,
server.js lines 457-462; never individually normalized). -/
structure Comment where
  id : Int
  author : String
  text : String
  createdAt : Int
deriving DecidableEq, Repr

/-- Fully-normalized post record: the shape every post has after
`normalisePosts` has run (server.js lines 67-74 guarantee `likes` is a
number and `likedBy`/`comments` are arrays). -/
structure Post where
  id : Int
  title : String
  caption : String
  imageFilename : String
  author : String
  createdAt : Int
  likes : Int
  likedBy : List String
  comments : List Comment
deriving DecidableEq, Repr

/-- Post record as loaded from disk: `likes` may be a non-number
(`none`), `likedBy` / `comments` may be non-arrays (`none`). -/
structure RawPost where
  id : Int
  title : String
  caption : String
  imageFilename : String
  author : String
  createdAt : Int
  likes : Option Int
  likedBy : Option (List String)
  comments : Option (List Comment)
deriving DecidableEq, Repr

/-- Fully-normalized user record: the shape after `normaliseUsers`
(server.js lines 31-57). `email` and `passwordPlain` are never
backfilled by the normalizer, so they stay optional. -/
structure User where
  username : String
  email : Option String
  passwordPlain : Option String
  joinedAt : Nat
  isAdmin : Bool
  banned : Bool
  followers : List String
  following : List String
deriving DecidableEq, Repr

/-- User record as loaded from disk: `joinedAt` may be absent,
`isAdmin` / `banned` may be non-booleans, `followers` / `following`
may be non-arrays. -/
structure RawUser where
  username : String
  email : Option String
  passwordPlain : Option String
  joinedAt : Option Nat
  isAdmin : Option Bool
  banned : Option Bool
  followers : Option (List String)
  following : Option (List String)
deriving DecidableEq, Repr

/-- Serialization of a normalized post back to the on-disk document
shape (what `savePosts` writes: every field present). -/
def injectPost (p : Post) : RawPost :=
  ⟨p.id, p.title, p.caption, p.imageFilename, p.author, p.createdAt,
    some p.likes, some p.likedBy, some p.comments⟩

/-- Serialization of a normalized user back to the on-disk document
shape (what `saveUsers` writes: every field present). -/
def injectUser (u : User) : RawUser :=
  ⟨u.username, u.email, u.passwordPlain, some u.joinedAt, some u.isAdmin,
    some u.banned, some u.followers, some u.following⟩

/-- Value of a raw post's `likes` as business logic would read it after
normalization (0 when not a number). -/
def rLikes (q : RawPost) : Int := q.likes.getD 0

/-- Value of a raw post's `likedBy` after normalization. -/
def rLikedBy (q : RawPost) : List String := q.likedBy.getD []

/-- Value of a raw post's `comments` after normalization. -/
def rComments (q : RawPost) : List Comment := q.comments.getD []

/-- Value of a raw user's `followers` after normalization. -/
def rFollowers (r : RawUser) : List String := r.followers.getD []

/-- Value of a raw user's `following` after normalization. -/
def rFollowing (r : RawUser) : List String := r.following.getD []

/-- A write to one of the two collection files. -/
inductive StoreWrite where
  | users (us : List User)
  | posts (ps : List Post)
deriving DecidableEq, Repr

/-- Normalization of a single user record, server.js lines 33-54:
backfill `joinedAt` when falsy (absent or 0) to the current time,
`isAdmin` / `banned` to `false` when not booleans, `followers` /
`following` to `[]` when not arrays. The boolean records whether any
field of this record was amended. -/
def normaliseUser (now : Nat) (r : RawUser) : User × Bool :=
  let j : Nat × Bool :=
    match r.joinedAt with
    | some n => if n = 0 then (now, true) else (n, false)
    | none => (now, true)
  let ad : Bool × Bool :=
    match r.isAdmin with
    | some b => (b, false)
    | none => (false, true)
  let bn : Bool × Bool :=
    match r.banned with
    | some b => (b, false)
    | none => (false, true)
  let fo : List String × Bool :=
    match r.followers with
    | some l => (l, false)
    | none => ([], true)
  let fg : List String × Bool :=
    match r.following with
    | some l => (l, false)
    | none => ([], true)
  (⟨r.username, r.email, r.passwordPlain, j.1, ad.1, bn.1, fo.1, fg.1⟩,
    j.2 || ad.2 || bn.2 || fo.2 || fg.2)

/-- Normalization of the whole users collection (server.js lines 31-57,
without the save on line 55): the normalized records together with the
`changed` flag that line 55 tests. -/
def normaliseUsers (now : Nat) (stored : List RawUser) : List User × Bool :=
  (stored.map (fun r => (normaliseUser now r).1),
    stored.any (fun r => (normaliseUser now r).2))

/-- Full `normaliseUsers` including its side effect: line 55 persists
the normalized collection exactly when `changed` is set. -/
def normaliseUsersW (now : Nat) (stored : List RawUser) :
    List User × List StoreWrite :=
  let r := normaliseUsers now stored
  (r.1, if r.2 then [StoreWrite.users r.1] else [])

/-- Normalization of a single post record, server.js lines 68-72. -/
def normalisePost (q : RawPost) : Post :=
  ⟨q.id, q.title, q.caption, q.imageFilename, q.author, q.createdAt,
    q.likes.getD 0, q.likedBy.getD [], q.comments.getD []⟩

/-- Normalization of the whole posts collection (server.js lines 67-74).
Unlike `normaliseUsers`, the source contains no `savePosts` call and no
`changed` flag here, so the list of store writes is empty. -/
def normalisePosts (stored : List RawPost) : List Post × List StoreWrite :=
  (stored.map normalisePost, [])

/-- State of one collection file on disk. -/
inductive FileState (α : Type) where
  | missing
  | empty
  | stored (docs : List α)
deriving DecidableEq

/-- Error raised by `fs.readFileSync` on a missing file. -/
inductive StoreError where
  | enoent
deriving DecidableEq, Repr

/-- Embedding of `JSON.parse(fs.readFileSync(FILE, 'utf8') || '[]')`
(server.js lines 23-25 and 59-61): `readFileSync` throws `ENOENT` when
the file is missing; an empty read falls back to the literal `'[]'`,
which parses to the empty array; otherwise the stored documents are
returned. -/
def readCollection {α : Type} : FileState α → Except StoreError (List α)
  | FileState.missing => Except.error StoreError.enoent
  | FileState.empty => Except.ok []
  | FileState.stored docs => Except.ok docs

/-- The `loadUsers` helper, server.js lines 23-25. -/
def loadUsersFile : FileState RawUser → Except StoreError (List RawUser) :=
  readCollection

/-- The `loadPosts` helper, server.js lines 59-61. -/
def loadPostsFile : FileState RawPost → Except StoreError (List RawPost) :=
  readCollection

/-- Startup initialization, server.js lines 19-20: when a collection
file does not exist, write the literal `'[]'` (the empty document
array) to it; otherwise leave it alone. -/
def ensureFile {α : Type} : FileState α → FileState α
  | FileState.missing => FileState.stored []
  | s => s

/-- In-place mutation of the record returned by `Array.prototype.find`:
the first element satisfying the predicate is replaced by its image
under `f`, all other elements are untouched. -/
def updateFirst {α : Type} (p : α → Bool) (f : α → α) : List α → List α
  | [] => []
  | x :: xs => if p x then f x :: xs else x :: updateFirst p f xs

/-- Outcome of the register route. -/
inductive RegResult where
  | ok
  | missingFields
  | passwordMismatch
  | duplicate
deriving DecidableEq, Repr

/-- The register route, server.js lines 284-316: validate the form
fields (before touching the store), normalize the loaded users, reject
a duplicate username by case-sensitive exact match, otherwise push the
new record — the very first user gets `isAdmin = true` — and save. The
returned collection is what is stored on disk afterwards: on the
validation paths nothing is saved (beyond the save `normaliseUsers`
itself performs when it amended a loaded record). -/
def registerRoute (now : Nat) (stored : List RawUser)
    (username email password password2 : String) :
    List RawUser × RegResult :=
  if username = "" ∨ password = "" ∨ password2 = "" then
    (stored, RegResult.missingFields)
  else if password ≠ password2 then
    (stored, RegResult.passwordMismatch)
  else
    let n := normaliseUsers now stored
    if n.1.any (fun u => u.username == username) then
      ((if n.2 then n.1.map injectUser else stored), RegResult.duplicate)
    else
      let newUser : User :=
        ⟨username, some email, some password, now, n.1.isEmpty, false, [], []⟩
      ((n.1 ++ [newUser]).map injectUser, RegResult.ok)

/-- Outcome of the login route. -/
inductive LoginResult where
  | success (u : User)
  | invalidCredential
  | banned
deriving DecidableEq, Repr

/-- The login route, server.js lines 319-341: find the first user whose
username and stored credential both match exactly; no match is a 401
invalid-credential failure, a banned match is a distinct 403 failure,
otherwise the matched user's session is established. -/
def loginRoute (now : Nat) (stored : List RawUser)
    (username password : String) : LoginResult :=
  let users := (normaliseUsers now stored).1
  match users.find? (fun u =>
      u.username == username && u.passwordPlain == some password) with
  | none => LoginResult.invalidCredential
  | some u => if u.banned then LoginResult.banned else LoginResult.success u

/-- The follow route, server.js lines 229-248: a self-follow redirects
before the store is read; otherwise both endpoint users are looked up
in the normalized collection, each side of the relationship is added
idempotently, and the collection is saved. When either user is missing
nothing is mutated (only the normalizer's own save can have happened).
The result is the collection stored on disk afterwards. -/
def followRoute (now : Nat) (stored : List RawUser)
    (meName targetName : String) : List RawUser :=
  if targetName = meName then stored
  else
    let n := normaliseUsers now stored
    match n.1.find? (fun u => u.username == meName),
        n.1.find? (fun u => u.username == targetName) with
    | some _, some _ =>
      let step1 := updateFirst (fun u => u.username == meName)
        (fun u => { u with
          following := if targetName ∈ u.following then u.following
            else u.following ++ [targetName] }) n.1
      let step2 := updateFirst (fun u => u.username == targetName)
        (fun u => { u with
          followers := if meName ∈ u.followers then u.followers
            else u.followers ++ [meName] }) step1
      step2.map injectUser
    | _, _ => if n.2 then n.1.map injectUser else stored

/-- The unfollow route, server.js lines 251-270: symmetric removal by
filtering each side's list; idempotent because filtering an absent name
is the identity. -/
def unfollowRoute (now : Nat) (stored : List RawUser)
    (meName targetName : String) : List RawUser :=
  if targetName = meName then stored
  else
    let n := normaliseUsers now stored
    match n.1.find? (fun u => u.username == meName),
        n.1.find? (fun u => u.username == targetName) with
    | some _, some _ =>
      let step1 := updateFirst (fun u => u.username == meName)
        (fun u => { u with
          following := u.following.filter (fun x => x ≠ targetName) }) n.1
      let step2 := updateFirst (fun u => u.username == targetName)
        (fun u => { u with
          followers := u.followers.filter (fun x => x ≠ meName) }) step1
      step2.map injectUser
    | _, _ => if n.2 then n.1.map injectUser else stored

/-- The admin ban/unban routes, server.js lines 528-548: set the
`banned` flag on the named user and save; silently do nothing when the
user does not exist. -/
def setBannedRoute (now : Nat) (stored : List RawUser)
    (username : String) (b : Bool) : List RawUser :=
  let n := normaliseUsers now stored
  match n.1.find? (fun u => u.username == username) with
  | some _ =>
    (updateFirst (fun u => u.username == username)
      (fun u => { u with banned := b }) n.1).map injectUser
  | none => if n.2 then n.1.map injectUser else stored

/-- The admin make-admin route, server.js lines 551-560. -/
def makeAdminRoute (now : Nat) (stored : List RawUser)
    (username : String) : List RawUser :=
  let n := normaliseUsers now stored
  match n.1.find? (fun u => u.username == username) with
  | some _ =>
    (updateFirst (fun u => u.username == username)
      (fun u => { u with isAdmin := true }) n.1).map injectUser
  | none => if n.2 then n.1.map injectUser else stored

/-- A load of the users collection with no further mutation, as every
read-only route performs (e.g. server.js lines 120, 202): the store is
rewritten only when the normalizer amended a record. -/
def normUsersRoute (now : Nat) (stored : List RawUser) : List RawUser :=
  let n := normaliseUsersW now stored
  match n.2 with
  | [] => stored
  | _ => n.1.map injectUser

/-- The upload route, server.js lines 351-380: append a fresh post with
`id` and `createdAt` both equal to the creation instant, zero likes, no
likers and no comments; empty titles default to a placeholder. -/
def uploadRoute (now : Int) (stored : List RawPost)
    (author title caption filename : String) : List RawPost :=
  let posts := (normalisePosts stored).1
  let newPost : Post :=
    ⟨now, (if title = "" then "Untitled Joint" else title),
      caption, filename, author, now, 0, [], []⟩
  (posts ++ [newPost]).map injectPost

/-- The like/unlike toggle applied to one post, server.js lines
397-406: a user not yet in `likedBy` is appended and `likes` is
incremented; a user already present is removed (splice at the index
found by `indexOf`, i.e. the first occurrence) and `likes` is
decremented, defensively clamped at zero. -/
def togglePost (user : String) (p : Post) : Post :=
  if user ∈ p.likedBy then
    let likes' := p.likes - 1
    { p with
      likedBy := p.likedBy.erase user,
      likes := if likes' < 0 then 0 else likes' }
  else
    { p with likedBy := p.likedBy ++ [user], likes := p.likes + 1 }

/-- The like route, server.js lines 383-410: toggle the first post with
the requested id and save; a missing post is a 404 and nothing is
written. -/
def toggleLikeRoute (stored : List RawPost) (id : Int) (user : String) :
    List RawPost :=
  let posts := (normalisePosts stored).1
  match posts.find? (fun p => p.id == id) with
  | none => stored
  | some _ =>
    (updateFirst (fun p => p.id == id) (togglePost user) posts).map injectPost

/-- The add-comment route, server.js lines 436-466: empty or
whitespace-only text (after trimming) redirects before the store is
read; a missing post is a 404; otherwise a fresh comment is appended to
the first post with the requested id and the collection is saved. -/
def addCommentRoute (now : Int) (stored : List RawPost) (id : Int)
    (author text : String) : List RawPost :=
  let t := text.trim
  if t = "" then stored
  else
    let posts := (normalisePosts stored).1
    match posts.find? (fun p => p.id == id) with
    | none => stored
    | some _ =>
      let newComment : Comment := ⟨now, author, t, now⟩
      (updateFirst (fun p => p.id == id)
        (fun p => { p with comments := p.comments ++ [newComment] })
        posts).map injectPost

/-- The delete-comment route, server.js lines 469-499: locate the first
post with the requested id, then the index of the first comment with
the requested comment id; missing post or comment is a 404; a requester
who is neither the comment's author nor the post's author is a 403;
otherwise the comment is spliced out and the collection saved. -/
def deleteCommentRoute (stored : List RawPost) (postId commentId : Int)
    (requester : String) : List RawPost :=
  let posts := (normalisePosts stored).1
  match posts.find? (fun p => p.id == postId) with
  | none => stored
  | some post =>
    match post.comments.findIdx? (fun c => c.id == commentId) with
    | none => stored
    | some idx =>
      let comment := post.comments.getD idx ⟨0, "", "", 0⟩
      if comment.author ≠ requester ∧ post.author ≠ requester then stored
      else
        (updateFirst (fun p => p.id == postId)
          (fun p => { p with comments := p.comments.eraseIdx idx })
          posts).map injectPost

/-- Outcome of the author delete-post route. -/
inductive DelResult where
  | ok
  | notFound
  | forbidden
deriving DecidableEq, Repr

/-- The author delete-post route, server.js lines 413-433: the
not-found and ownership checks are made against the first post whose id
matches (`posts.find`), but the deletion itself filters out every post
with that id. -/
def deletePostRoute (stored : List RawPost) (id : Int)
    (requester : String) : List RawPost × DelResult :=
  let posts := (normalisePosts stored).1
  match posts.find? (fun p => p.id == id) with
  | none => (stored, DelResult.notFound)
  | some post =>
    if post.author ≠ requester then (stored, DelResult.forbidden)
    else
      ((posts.filter (fun p => ¬(p.id == id))).map injectPost, DelResult.ok)

/-- The admin delete-post route, server.js lines 519-525: filter out
every post with the requested id and save, unconditionally — there is
no not-found branch and no ownership check. -/
def adminDeletePostRoute (stored : List RawPost) (id : Int) :
    List RawPost :=
  ((normalisePosts stored).1.filter (fun p => ¬(p.id == id))).map injectPost

/-- Page size of the two paginated feeds, server.js line 14. -/
def POSTS_PER_PAGE : Nat := 5

/-- Pagination of a sorted post list as implemented identically in the
home route (server.js lines 138-148) and the top route (lines 159-174):
a missing or non-numeric page parameter (`parseInt` returned `NaN`,
modelled by `none`) and any page below 1 become page 1;
`totalPages = max(1, ceil(count / pageSize))`; a page beyond
`totalPages` is clamped down to it; the served slice is
`[(page-1)*pageSize, page*pageSize)`. The routes instantiate
`pageSize` with `POSTS_PER_PAGE`. -/
def paginate (posts : List Post) (requested : Option Int)
    (pageSize : Nat) : List Post × Nat × Nat :=
  let page1 : Int :=
    match requested with
    | none => 1
    | some p => if p < 1 then 1 else p
  let totalPages : Nat := max 1 ((posts.length + pageSize - 1) / pageSize)
  let page : Nat := if (totalPages : Int) < page1 then totalPages else page1.toNat
  ((posts.drop ((page - 1) * pageSize)).take pageSize, page, totalPages)

/-- The home feed, server.js lines 137-155: reverse-chronological sort
followed by pagination. -/
def homeRoute (stored : List RawPost) (requested : Option Int) :
    List Post × Nat × Nat :=
  paginate
    (((normalisePosts stored).1).mergeSort
      (fun a b => decide (b.createdAt ≤ a.createdAt)))
    requested POSTS_PER_PAGE

/-- Core operations on the users collection, each embedding the route
of the same name acting on the stored collection. -/
inductive UserOp where
  | register (now : Nat) (username email password password2 : String)
  | follow (now : Nat) (meName targetName : String)
  | unfollow (now : Nat) (meName targetName : String)
  | setBanned (now : Nat) (username : String) (b : Bool)
  | makeAdmin (now : Nat) (username : String)
  | norm (now : Nat)
deriving DecidableEq, Repr

/-- Effect of one core user operation on the stored users collection. -/
def applyUserOp (stored : List RawUser) : UserOp → List RawUser
  | UserOp.register now u e p p2 => (registerRoute now stored u e p p2).1
  | UserOp.follow now m t => followRoute now stored m t
  | UserOp.unfollow now m t => unfollowRoute now stored m t
  | UserOp.setBanned now u b => setBannedRoute now stored u b
  | UserOp.makeAdmin now u => makeAdminRoute now stored u
  | UserOp.norm now => normUsersRoute now stored

/-- Stored users collection after a sequence of core operations run
against the initial (empty) store. -/
def runUserOps (ops : List UserOp) : List RawUser :=
  ops.foldl applyUserOp []

/-- Core operations on the posts collection. `norm` is a bare
load-and-normalize: `normalisePosts` amends records in memory only and
never writes, so the stored collection is untouched. -/
inductive PostOp where
  | upload (now : Int) (author title caption filename : String)
  | toggle (id : Int) (user : String)
  | addComment (now : Int) (id : Int) (author text : String)
  | deleteComment (postId commentId : Int) (requester : String)
  | norm
deriving DecidableEq, Repr

/-- Effect of one core post operation on the stored posts collection. -/
def applyPostOp (stored : List RawPost) : PostOp → List RawPost
  | PostOp.upload now a t c f => uploadRoute now stored a t c f
  | PostOp.toggle id u => toggleLikeRoute stored id u
  | PostOp.addComment now id a txt => addCommentRoute now stored id a txt
  | PostOp.deleteComment pid cid r => deleteCommentRoute stored pid cid r
  | PostOp.norm => stored

/-- Stored posts collection after a sequence of core operations run
against the initial (empty) store. -/
def runPostOps (ops : List PostOp) : List RawPost :=
  ops.foldl applyPostOp []

/-- Likes-count invariant on the stored posts collection: every post's
`likes` field equals the size of its `likedBy` set, read through
normalization. -/
def postsInv (stored : List RawPost) : Prop :=
  ∀ q ∈ stored, rLikes q = ((rLikedBy q).length : Int)

/-- Follow-graph invariant on the stored users collection: usernames
are unique, every name appearing in a relationship list belongs to a
registered user, and the follower/following relation is symmetric
between distinct users. -/
def usersInv (stored : List RawUser) : Prop :=
  (stored.map (fun r => r.username)).Nodup ∧
  (∀ a ∈ stored, ∀ nm : String,
    (nm ∈ rFollowers a ∨ nm ∈ rFollowing a) →
    ∃ b ∈ stored, b.username = nm) ∧
  (∀ a ∈ stored, ∀ b ∈ stored, a.username ≠ b.username →
    (a.username ∈ rFollowers b ↔ b.username ∈ rFollowing a))

/-- Same invariant on a normalized users collection. -/
def usersInvN (us : List User) : Prop :=
  (us.map (fun u => u.username)).Nodup ∧
  (∀ a ∈ us, ∀ nm : String,
    (nm ∈ a.followers ∨ nm ∈ a.following) →
    ∃ b ∈ us, b.username = nm) ∧
  (∀ a ∈ us, ∀ b ∈ us, a.username ≠ b.username →
    (a.username ∈ b.followers ↔ b.username ∈ a.following))

section ListLemmas

variable {α : Type}

theorem map_eq_self_iff_forall (f : α → α) (l : List α) :
    l.map f = l ↔ ∀ x ∈ l, f x = x := by
  induction l with
  | nil => simp
  | cons x xs ih => simp [ih]

theorem updateFirst_nil (p : α → Bool) (f : α → α) :
    updateFirst p f [] = [] := rfl

theorem updateFirst_cons (p : α → Bool) (f : α → α) (x : α) (xs : List α) :
    updateFirst p f (x :: xs) =
      if p x then f x :: xs else x :: updateFirst p f xs := rfl

theorem forall_mem_updateFirst (p : α → Bool) (f : α → α) (P : α → Prop)
    (l : List α) (hl : ∀ x ∈ l, P x) (hf : ∀ x ∈ l, p x = true → P (f x)) :
    ∀ x ∈ updateFirst p f l, P x := by
  induction l with
  | nil => simp [updateFirst_nil]
  | cons y ys ih =>
    intro x hx
    rw [updateFirst_cons] at hx
    by_cases hy : p y
    · rw [if_pos hy] at hx
      rcases List.mem_cons.mp hx with h | h
      · exact h ▸ hf y (List.mem_cons_self y ys) hy
      · exact hl x (List.mem_cons_of_mem y h)
    · rw [if_neg hy] at hx
      rcases List.mem_cons.mp hx with h | h
      · exact h ▸ hl y (List.mem_cons_self y ys)
      · exact ih (fun z hz => hl z (List.mem_cons_of_mem y hz))
          (fun z hz => hf z (List.mem_cons_of_mem y hz)) x h

theorem updateFirst_eq_map_of_nodup {β : Type} [DecidableEq β]
    (key : α → β) (n : β) (f : α → α) (l : List α)
    (h : (l.map key).Nodup) :
    updateFirst (fun x => key x == n) f l =
      l.map (fun x => if key x = n then f x else x) := by
  induction l with
  | nil => rfl
  | cons x xs ih =>
    rw [updateFirst_cons]
    have h' : (∀ y ∈ xs, ¬ key y = key x) ∧ (List.map key xs).Nodup := by
      simpa using h
    obtain ⟨hx, hxs⟩ := h'
    by_cases hk : key x = n
    · rw [if_pos (by simpa using hk), List.map_cons, if_pos hk]
      have : ∀ y ∈ xs, (if key y = n then f y else y) = y := by
        intro y hy
        have : key y ≠ n := fun hc => hx y hy (hc.trans hk.symm)
        rw [if_neg this]
      rw [(map_eq_self_iff_forall _ xs).mpr this]
    · rw [if_neg (by simpa using hk), List.map_cons, if_neg hk, ih hxs]

theorem find?_eq_some_of_nodup_key {β : Type} [DecidableEq β]
    (key : α → β) (l : List α) (h : (l.map key).Nodup)
    (p : α → Bool) (k : β) (hpk : ∀ x, p x = true → key x = k)
    (a : α) (ha : a ∈ l) (hpa : p a = true) :
    l.find? p = some a := by
  induction l with
  | nil => cases ha
  | cons x xs ih =>
    have h' : (∀ y ∈ xs, ¬ key y = key x) ∧ (List.map key xs).Nodup := by
      simpa using h
    obtain ⟨hx, hxs⟩ := h'
    rcases List.mem_cons.mp ha with h1 | h1
    · subst h1
      simp [List.find?, hpa]
    · have hpx : p x = false := by
        rcases hb : p x with _ | _
        · rfl
        · exfalso
          have hkx : key x = k := hpk x hb
          have hka : key a = k := hpk a hpa
          exact hx a h1 (hka.trans hkx.symm)
      simp [List.find?, hpx]
      exact ih hxs h1

theorem mem_addIfAbsent (x n : String) (l : List String) :
    n ∈ (if x ∈ l then l else l ++ [x]) ↔ n = x ∨ n ∈ l := by
  by_cases hx : x ∈ l
  · rw [if_pos hx]
    constructor
    · exact fun h => Or.inr h
    · rintro (rfl | h)
      · exact hx
      · exact h
  · rw [if_neg hx]
    simp [List.mem_append, or_comm]

theorem mem_filter_ne (m n : String) (l : List String) :
    n ∈ l.filter (fun x => x ≠ m) ↔ n ∈ l ∧ n ≠ m := by
  simp [List.mem_filter]

end ListLemmas

section NormalizerLemmas

theorem normaliseUser_username (now : Nat) (r : RawUser) :
    (normaliseUser now r).1.username = r.username := rfl

theorem normaliseUser_email (now : Nat) (r : RawUser) :
    (normaliseUser now r).1.email = r.email := rfl

theorem normaliseUser_passwordPlain (now : Nat) (r : RawUser) :
    (normaliseUser now r).1.passwordPlain = r.passwordPlain := rfl

theorem normaliseUser_followers (now : Nat) (r : RawUser) :
    (normaliseUser now r).1.followers = rFollowers r := by
  rcases r with ⟨un, em, pw, j, ad, bn, fo, fg⟩
  cases fo <;> rfl

theorem normaliseUser_following (now : Nat) (r : RawUser) :
    (normaliseUser now r).1.following = rFollowing r := by
  rcases r with ⟨un, em, pw, j, ad, bn, fo, fg⟩
  cases fg <;> rfl

theorem rFollowers_injectUser (u : User) :
    rFollowers (injectUser u) = u.followers := rfl

theorem rFollowing_injectUser (u : User) :
    rFollowing (injectUser u) = u.following := rfl

theorem injectUser_username (u : User) :
    (injectUser u).username = u.username := rfl

theorem normaliseUser_injectUser (now : Nat) (u : User)
    (h : u.joinedAt ≠ 0) : normaliseUser now (injectUser u) = (u, false) := by
  rcases u with ⟨un, em, pw, j, ad, bn, fo, fg⟩
  simp only [normaliseUser, injectUser]
  simp at h
  simp [h]

theorem normaliseUsers_fst (now : Nat) (stored : List RawUser) :
    (normaliseUsers now stored).1 =
      stored.map (fun r => (normaliseUser now r).1) := rfl

theorem normaliseUsers_usernames (now : Nat) (stored : List RawUser) :
    (normaliseUsers now stored).1.map (fun u => u.username) =
      stored.map (fun r => r.username) := by
  rw [normaliseUsers_fst, List.map_map]
  rfl

theorem normaliseUsers_injectUser (now : Nat) (us : List User)
    (h : ∀ u ∈ us, u.joinedAt ≠ 0) :
    normaliseUsers now (us.map injectUser) = (us, false) := by
  unfold normaliseUsers
  rw [Prod.mk.injEq]
  refine ⟨?_, ?_⟩
  · rw [List.map_map]
    have : ∀ u ∈ us, ((fun r => (normaliseUser now r).1) ∘ injectUser) u = u := by
      intro u hu
      have := normaliseUser_injectUser now u (h u hu)
      simp [Function.comp, this]
    calc (us.map ((fun r => (normaliseUser now r).1) ∘ injectUser))
        = us.map id := List.map_congr_left (by simpa using this)
      _ = us := List.map_id us
  · rw [List.any_eq_false]
    intro r hr
    rcases List.mem_map.mp hr with ⟨u, hu, rfl⟩
    have := normaliseUser_injectUser now u (h u hu)
    simp [this]

theorem rLikes_injectPost (p : Post) : rLikes (injectPost p) = p.likes := rfl

theorem rLikedBy_injectPost (p : Post) :
    rLikedBy (injectPost p) = p.likedBy := rfl

theorem normalisePost_injectPost (p : Post) :
    normalisePost (injectPost p) = p := rfl

theorem normalisePost_likes (q : RawPost) :
    (normalisePost q).likes = rLikes q := rfl

theorem normalisePost_likedBy (q : RawPost) :
    (normalisePost q).likedBy = rLikedBy q := rfl

theorem normalisePosts_injectPost (ps : List Post) :
    normalisePosts (ps.map injectPost) = (ps, []) := by
  unfold normalisePosts
  rw [List.map_map, Prod.mk.injEq]
  refine ⟨?_, ?_⟩
  · calc (ps.map (normalisePost ∘ injectPost))
        = ps.map id := List.map_congr_left (by
          intro p hp
          simp [Function.comp, normalisePost_injectPost])
      _ = ps := List.map_id ps
  · rfl

/-- A single record's amendment flag is semantically exact: the flag is
clear precisely when re-serializing the normalized record reproduces
the loaded record (for a nonzero clock, so the backfilled `joinedAt`
is distinguishable from the falsy values it replaces). -/
theorem normaliseUser_flag_iff (now : Nat) (hn : now ≠ 0) (r : RawUser) :
    (normaliseUser now r).2 = false ↔
      injectUser (normaliseUser now r).1 = r := by
  rcases r with ⟨un, em, pw, j, ad, bn, fo, fg⟩
  rcases j with _ | j <;> rcases ad with _ | ad <;> rcases bn with _ | bn <;>
    rcases fo with _ | fo <;> rcases fg with _ | fg <;>
    simp [normaliseUser, injectUser] <;>
    by_cases hj : j = 0 <;> simp [hj, hn] <;> omega

end NormalizerLemmas

section StoreClaims

/-- Concrete stored post whose `likes` field is malformed (not a
number), so normalization must amend the record. -/
def rawPostMissingLikes : RawPost :=
  ⟨1, "t", "", "img.jpg", "alice", 1, none, some [], some []⟩

/-- C3 counterexample: normalizing a collection containing a record
that needs amending (`likes` is not a number) amends it in memory —
re-serializing the normalized record no longer reproduces the loaded
one — yet `normalisePosts` performs no store write at all, contradicting
the claim that an amended collection is persisted immediately. -/
theorem normalisePosts_never_persists_counterexample :
    injectPost (normalisePost rawPostMissingLikes) ≠ rawPostMissingLikes ∧
    (normalisePosts [rawPostMissingLikes]).1 =
      [normalisePost rawPostMissingLikes] ∧
    (normalisePosts [rawPostMissingLikes]).2 = [] := by
  refine ⟨?_, rfl, rfl⟩
  decide

/-- C3 amended: `normaliseUsers` persists the users collection exactly
when some record was amended (re-serializing the normalized collection
differs from what was loaded); `normalisePosts` amends records in
memory but never persists, whether or not a record was amended. -/
theorem normalisation_persist_behaviour (now : Nat) (hn : 0 < now)
    (storedU : List RawUser) (storedP : List RawPost) :
    ((normaliseUsersW now storedU).2 ≠ [] ↔
      (normaliseUsers now storedU).1.map injectUser ≠ storedU) ∧
    (normalisePosts storedP).2 = [] := by
  refine ⟨?_, rfl⟩
  have h1 : (normaliseUsersW now storedU).2 ≠ [] ↔
      (normaliseUsers now storedU).2 = true := by
    unfold normaliseUsersW
    rcases h : (normaliseUsers now storedU).2 with _ | _ <;> simp [h]
  have h2 : (normaliseUsers now storedU).2 = false ↔
      (normaliseUsers now storedU).1.map injectUser = storedU := by
    unfold normaliseUsers
    rw [List.any_eq_false, List.map_map]
    rw [map_eq_self_iff_forall]
    constructor
    · intro hf r hr
      exact (normaliseUser_flag_iff now (Nat.pos_iff_ne_zero.mp hn) r).mp
        (by simpa using hf r hr)
    · intro hf r hr
      simpa using (normaliseUser_flag_iff now
        (Nat.pos_iff_ne_zero.mp hn) r).mpr (hf r hr)
  rw [h1]
  constructor
  · intro ht hc
    rw [← h2] at hc
    rw [ht] at hc
    cases hc
  · intro hne
    rcases hb : (normaliseUsers now storedU).2 with _ | _
    · exact absurd (h2.mp hb) hne
    · rfl

/-- C3 witness for the amended theorem: on an already-well-formed
stored user the normalizer writes nothing, and re-serialization is the
identity. -/
theorem normalisation_persist_behaviour_witness :
    0 < 7 ∧
    (((normaliseUsersW 7
        [⟨"alice", none, some "pw", some 3, some true, some false,
          some [], some []⟩]).2 ≠ [] ↔
      (normaliseUsers 7
        [⟨"alice", none, some "pw", some 3, some true, some false,
          some [], some []⟩]).1.map injectUser ≠
        [⟨"alice", none, some "pw", some 3, some true, some false,
          some [], some []⟩]) ∧
    (normalisePosts [rawPostMissingLikes]).2 = []) :=
  ⟨by decide, normalisation_persist_behaviour 7 (by decide)
    [⟨"alice", none, some "pw", some 3, some true, some false,
      some [], some []⟩] [rawPostMissingLikes]⟩

/-- C4 counterexample: when the persisted file is missing,
`fs.readFileSync` throws `ENOENT`, so `loadUsers` throws instead of
returning an empty sequence — the `|| '[]'` fallback only covers the
empty-file case. -/
theorem load_missing_file_throws :
    loadUsersFile FileState.missing = Except.error StoreError.enoent ∧
    loadPostsFile FileState.missing = Except.error StoreError.enoent :=
  ⟨rfl, rfl⟩

/-- C4 amended: load returns the empty sequence for an empty file; for
a missing file it throws `ENOENT`, but startup initialization writes an
empty document array to any missing collection file, after which load
returns the empty sequence. -/
theorem load_empty_and_initialized_ok :
    loadUsersFile FileState.empty = Except.ok [] ∧
    loadPostsFile FileState.empty = Except.ok [] ∧
    loadUsersFile (ensureFile FileState.missing) = Except.ok [] ∧
    loadPostsFile (ensureFile FileState.missing) = Except.ok [] :=
  ⟨rfl, rfl, rfl, rfl⟩

/-- C6: normalizing an already-normalized collection (every field
well-typed, with a truthy `joinedAt` — the backfill condition `!u.joinedAt`
also fires on 0) changes no record: the users normalizer reports no
change and so triggers no persist, and the posts normalizer returns the
collection unchanged and never persists. -/
theorem normalisation_idempotent (now : Nat) (us : List User)
    (ps : List Post) (h : ∀ u ∈ us, u.joinedAt ≠ 0) :
    normaliseUsers now (us.map injectUser) = (us, false) ∧
    (normaliseUsersW now (us.map injectUser)).2 = [] ∧
    normalisePosts (ps.map injectPost) = (ps, []) := by
  have h1 := normaliseUsers_injectUser now us h
  refine ⟨h1, ?_, normalisePosts_injectPost ps⟩
  unfold normaliseUsersW
  rw [h1]
  rfl

/-- C6 witness on a one-user, one-post store. -/
theorem normalisation_idempotent_witness :
    (∀ u ∈ [(⟨"alice", none, some "pw", 3, true, false, ["bob"],
        []⟩ : User)], u.joinedAt ≠ 0) ∧
    (normaliseUsers 7 ([(⟨"alice", none, some "pw", 3, true, false,
        ["bob"], []⟩ : User)].map injectUser) =
      ([⟨"alice", none, some "pw", 3, true, false, ["bob"], []⟩], false) ∧
    (normaliseUsersW 7 ([(⟨"alice", none, some "pw", 3, true, false,
        ["bob"], []⟩ : User)].map injectUser)).2 = [] ∧
    normalisePosts ([(⟨1, "t", "c", "i", "alice", 1, 1, ["bob"],
        []⟩ : Post)].map injectPost) =
      ([⟨1, "t", "c", "i", "alice", 1, 1, ["bob"], []⟩], [])) :=
  ⟨by decide, normalisation_idempotent 7
    [⟨"alice", none, some "pw", 3, true, false, ["bob"], []⟩]
    [⟨1, "t", "c", "i", "alice", 1, 1, ["bob"], []⟩] (by decide)⟩

end StoreClaims

section ToggleClaim

/-- C5: for a well-formed post (no duplicate likers, likes equal to the
liker count), toggling a like twice restores the original likes count
and the original likedBy membership, and likes stays non-negative at
both intermediate points. -/
theorem toggle_like_double_restores (p : Post) (u : String)
    (hnd : p.likedBy.Nodup) (hinv : p.likes = (p.likedBy.length : Int)) :
    (togglePost u (togglePost u p)).likes = p.likes ∧
    (∀ v : String,
      v ∈ (togglePost u (togglePost u p)).likedBy ↔ v ∈ p.likedBy) ∧
    0 ≤ (togglePost u p).likes ∧
    0 ≤ (togglePost u (togglePost u p)).likes := by
  obtain ⟨pid, pti, pca, pim, pau, pcr, plikes, plb, pco⟩ := p
  dsimp only at hnd hinv ⊢
  subst hinv
  by_cases hm : u ∈ plb
  · have hpos : 1 ≤ plb.length := List.length_pos.mpr (by
      intro hc
      rw [hc] at hm
      cases hm)
    have hcl : ¬ ((plb.length : Int) - 1 < 0) := by omega
    have hne : u ∉ plb.erase u := fun hc =>
      (hnd.mem_erase_iff.mp hc).1 rfl
    simp only [togglePost, if_pos hm, if_neg hcl, if_neg hne]
    refine ⟨by omega, ?_, by omega, by omega⟩
    intro v
    simp only [List.mem_append, List.mem_singleton]
    by_cases hv : v = u
    · subst hv
      simp [hm]
    · simp [hv, hnd.mem_erase_iff]
  · have hin : u ∈ plb ++ [u] := by simp
    have herase : (plb ++ [u]).erase u = plb := by
      rw [List.erase_append_right _ hm]
      simp
    have hcl2 : ¬ ((plb.length : Int) + 1 - 1 < 0) := by omega
    simp only [togglePost, if_neg hm, if_pos hin, herase, if_neg hcl2]
    refine ⟨by omega, ?_, by omega, by omega⟩
    intro v
    trivial

/-- C5 witness: a post liked by alice, toggled twice by bob. -/
theorem toggle_like_double_restores_witness :
    ((⟨9, "t", "c", "i", "alice", 9, 1, ["alice"],
        []⟩ : Post)).likedBy.Nodup ∧
    ((togglePost "bob" (togglePost "bob"
        ⟨9, "t", "c", "i", "alice", 9, 1, ["alice"], []⟩)).likes =
      (⟨9, "t", "c", "i", "alice", 9, 1, ["alice"], []⟩ : Post).likes ∧
    (∀ v : String,
      v ∈ (togglePost "bob" (togglePost "bob"
        ⟨9, "t", "c", "i", "alice", 9, 1, ["alice"], []⟩)).likedBy ↔
      v ∈ (⟨9, "t", "c", "i", "alice", 9, 1, ["alice"], []⟩ : Post).likedBy) ∧
    0 ≤ (togglePost "bob"
        (⟨9, "t", "c", "i", "alice", 9, 1, ["alice"], []⟩ : Post)).likes ∧
    0 ≤ (togglePost "bob" (togglePost "bob"
        (⟨9, "t", "c", "i", "alice", 9, 1, ["alice"], []⟩ : Post))).likes) :=
  ⟨by decide, toggle_like_double_restores
    ⟨9, "t", "c", "i", "alice", 9, 1, ["alice"], []⟩ "bob"
    (by decide) (by decide)⟩

end ToggleClaim

section PaginateClaim

theorem slice_take_drop {α : Type} (l : List α) (a S : Nat) :
    (l.drop a).take S = (l.take (a + S)).drop a := by
  symm
  rw [List.drop_take]
  congr 1
  omega

theorem take_drop_nonempty {α : Type} (l : List α) (a S : Nat)
    (hS : 0 < S) (ha : a < l.length) : (l.drop a).take S ≠ [] := by
  intro hc
  have hlen := congrArg List.length hc
  rw [List.length_take, List.length_drop] at hlen
  simp only [List.length_nil] at hlen
  omega

/-- Characterization of the three components computed by `paginate`:
there is a lower-clamped requested page `page1 ≥ 1` such that the
results are exactly the `totalPages`, upper-clamp and slice
expressions of the source. -/
theorem paginate_parts (posts : List Post) (req : Option Int) (S : Nat) :
    ∃ page1 : Int, 1 ≤ page1 ∧
      (paginate posts req S).2.2 = max 1 ((posts.length + S - 1) / S) ∧
      (paginate posts req S).2.1 =
        (if ((paginate posts req S).2.2 : Int) < page1
          then (paginate posts req S).2.2 else page1.toNat) ∧
      (paginate posts req S).1 =
        (posts.drop (((paginate posts req S).2.1 - 1) * S)).take S := by
  rcases req with _ | r
  · exact ⟨1, le_refl 1, rfl, rfl, rfl⟩
  · refine ⟨if r < 1 then 1 else r, ?_, rfl, rfl, rfl⟩
    by_cases h : r < 1
    · rw [if_pos h]
    · rw [if_neg h]
      omega

/-- Arithmetic core of the pagination logic: properties of
`totalPages = max 1 (ceil(N / S))` and of the clamped page number. -/
theorem paginate_spec (N S q tp : Nat) (page1 : Int) (page : Nat)
    (hS : 0 < S) (hp1 : 1 ≤ page1)
    (hq : q = (N + S - 1) / S) (htp : tp = max 1 q)
    (hpage : page = if (tp : Int) < page1 then tp else page1.toNat) :
    1 ≤ tp ∧ N ≤ S * tp ∧ (N = 0 → tp = 1) ∧
    (N ≠ 0 → (tp - 1) * S < N) ∧
    1 ≤ page ∧ page ≤ tp ∧ (N ≠ 0 → (page - 1) * S < N) := by
  have hdm : S * q + (N + S - 1) % S = N + S - 1 := by
    rw [hq]
    exact Nat.div_add_mod _ _
  have hmod : (N + S - 1) % S < S := Nat.mod_lt _ hS
  have c1 : 1 ≤ tp := htp ▸ le_max_left 1 q
  have hqtp : q ≤ tp := htp ▸ le_max_right 1 q
  have hNm : N ≤ S * q := by omega
  have c2 : N ≤ S * tp :=
    le_trans hNm (Nat.mul_le_mul (le_refl S) hqtp)
  have c3 : N = 0 → tp = 1 := by
    intro h0
    have hq0 : q = 0 := by
      rw [hq, h0]
      exact Nat.div_eq_of_lt (by omega)
    rw [htp, hq0]
    decide
  have hq1 : N ≠ 0 → 1 ≤ q := by
    intro h0
    by_contra hc
    have hq0 : q = 0 := by omega
    rw [hq0, Nat.mul_zero] at hdm
    omega
  have c4 : N ≠ 0 → (tp - 1) * S < N := by
    intro h0
    have h1 := hq1 h0
    have htpq : tp = q := by
      rw [htp]
      exact Nat.max_eq_right h1
    have hexp : (q - 1) * S = S * q - S := by
      rw [Nat.sub_mul, one_mul, Nat.mul_comm q S]
    rw [htpq, hexp]
    omega
  have hpg : 1 ≤ page ∧ page ≤ tp := by
    by_cases hcl : (tp : Int) < page1
    · rw [if_pos hcl] at hpage
      exact ⟨hpage ▸ c1, hpage ▸ le_refl tp⟩
    · rw [if_neg hcl] at hpage
      push_neg at hcl
      constructor
      · rw [hpage]
        omega
      · rw [hpage]
        omega
  refine ⟨c1, c2, c3, c4, hpg.1, hpg.2, ?_⟩
  intro h0
  have h4 := c4 h0
  have h5 : (page - 1) * S ≤ (tp - 1) * S :=
    Nat.mul_le_mul_right S (by omega)
  exact lt_of_le_of_lt h5 h4

/-- C7: pagination invariants of the feed routes: `totalPages` is the
ceiling of `count / pageSize`, clamped up to at least 1 (so it is 1 for
an empty collection); the served page number lands in
`[1, totalPages]`; the items are exactly the slice
`[(page-1)*pageSize, page*pageSize)`; and the served page is never
empty when the collection is non-empty — in particular whenever the
requested page is at most `totalPages`. -/
theorem paginate_bounds (posts : List Post) (req : Option Int) (S : Nat)
    (hS : 0 < S) :
    1 ≤ (paginate posts req S).2.2 ∧
    posts.length ≤ S * (paginate posts req S).2.2 ∧
    (posts = [] → (paginate posts req S).2.2 = 1) ∧
    (posts ≠ [] → ((paginate posts req S).2.2 - 1) * S < posts.length) ∧
    1 ≤ (paginate posts req S).2.1 ∧
    (paginate posts req S).2.1 ≤ (paginate posts req S).2.2 ∧
    (paginate posts req S).1 =
      (posts.take ((paginate posts req S).2.1 * S)).drop
        (((paginate posts req S).2.1 - 1) * S) ∧
    (posts ≠ [] → (paginate posts req S).1 ≠ []) := by
  obtain ⟨page1, hp1, htp, hpage, hitems⟩ := paginate_parts posts req S
  obtain ⟨c1, c2, c3, c4, c5, c6, c7⟩ :=
    paginate_spec posts.length S ((posts.length + S - 1) / S)
      (paginate posts req S).2.2 page1 (paginate posts req S).2.1
      hS hp1 rfl htp hpage
  refine ⟨c1, c2, ?_, ?_, c5, c6, ?_, ?_⟩
  · intro h0
    exact c3 (by rw [h0]; rfl)
  · intro h0
    exact c4 (fun hc => h0 (List.length_eq_zero.mp hc))
  · have hsum : ((paginate posts req S).2.1 - 1) * S + S =
        (paginate posts req S).2.1 * S := by
      rcases Nat.exists_eq_add_of_le c5 with ⟨k, hk⟩
      rw [hk]
      have h1 : 1 + k - 1 = k := by omega
      rw [h1, Nat.add_mul, Nat.one_mul]
      exact Nat.add_comm _ _
    rw [hitems, slice_take_drop, hsum]
  · intro h0
    rw [hitems]
    refine take_drop_nonempty posts _ S hS ?_
    exact c7 (fun hc => h0 (List.length_eq_zero.mp hc))

/-- C7 witness: seven posts at page size 5 give two pages; requesting
page 2 serves the last two posts. -/
theorem paginate_bounds_witness :
    0 < 5 ∧
    (1 ≤ (paginate (List.range 7 |>.map (fun i =>
        ⟨(i : Int), "t", "c", "f", "a", (i : Int), 0, [], []⟩))
        (some 2) 5).2.2 ∧
    (List.range 7 |>.map (fun i =>
        (⟨(i : Int), "t", "c", "f", "a", (i : Int), 0, [], []⟩ :
          Post))).length ≤
      5 * (paginate (List.range 7 |>.map (fun i =>
        ⟨(i : Int), "t", "c", "f", "a", (i : Int), 0, [], []⟩))
        (some 2) 5).2.2 ∧
    ((List.range 7 |>.map (fun i =>
        (⟨(i : Int), "t", "c", "f", "a", (i : Int), 0, [], []⟩ :
          Post))) = [] →
      (paginate (List.range 7 |>.map (fun i =>
        ⟨(i : Int), "t", "c", "f", "a", (i : Int), 0, [], []⟩))
        (some 2) 5).2.2 = 1) ∧
    ((List.range 7 |>.map (fun i =>
        (⟨(i : Int), "t", "c", "f", "a", (i : Int), 0, [], []⟩ :
          Post))) ≠ [] →
      ((paginate (List.range 7 |>.map (fun i =>
        ⟨(i : Int), "t", "c", "f", "a", (i : Int), 0, [], []⟩))
        (some 2) 5).2.2 - 1) * 5 <
        (List.range 7 |>.map (fun i =>
          (⟨(i : Int), "t", "c", "f", "a", (i : Int), 0, [], []⟩ :
            Post))).length) ∧
    1 ≤ (paginate (List.range 7 |>.map (fun i =>
        ⟨(i : Int), "t", "c", "f", "a", (i : Int), 0, [], []⟩))
        (some 2) 5).2.1 ∧
    (paginate (List.range 7 |>.map (fun i =>
        ⟨(i : Int), "t", "c", "f", "a", (i : Int), 0, [], []⟩))
        (some 2) 5).2.1 ≤
      (paginate (List.range 7 |>.map (fun i =>
        ⟨(i : Int), "t", "c", "f", "a", (i : Int), 0, [], []⟩))
        (some 2) 5).2.2 ∧
    (paginate (List.range 7 |>.map (fun i =>
        ⟨(i : Int), "t", "c", "f", "a", (i : Int), 0, [], []⟩))
        (some 2) 5).1 =
      ((List.range 7 |>.map (fun i =>
        (⟨(i : Int), "t", "c", "f", "a", (i : Int), 0, [], []⟩ :
          Post))).take ((paginate (List.range 7 |>.map (fun i =>
        ⟨(i : Int), "t", "c", "f", "a", (i : Int), 0, [], []⟩))
        (some 2) 5).2.1 * 5)).drop
        (((paginate (List.range 7 |>.map (fun i =>
        ⟨(i : Int), "t", "c", "f", "a", (i : Int), 0, [], []⟩))
        (some 2) 5).2.1 - 1) * 5) ∧
    ((List.range 7 |>.map (fun i =>
        (⟨(i : Int), "t", "c", "f", "a", (i : Int), 0, [], []⟩ :
          Post))) ≠ [] →
      (paginate (List.range 7 |>.map (fun i =>
        ⟨(i : Int), "t", "c", "f", "a", (i : Int), 0, [], []⟩))
        (some 2) 5).1 ≠ [])) :=
  ⟨by decide, paginate_bounds (List.range 7 |>.map (fun i =>
    ⟨(i : Int), "t", "c", "f", "a", (i : Int), 0, [], []⟩))
    (some 2) 5 (by decide)⟩

end PaginateClaim

section RegisterClaim

/-- C8: registering into an empty collection creates the first user
with `isAdmin = true`; registering into any non-empty collection (with
a fresh username) creates the new user with `isAdmin = false`;
registering an already-present username (case-sensitive exact match) is
rejected as a duplicate and stores nothing new — when the stored
collection needed no normalization it is left exactly unchanged. -/
theorem register_first_admin_and_duplicate :
    (∀ (now : Nat) (username email password : String),
      username ≠ "" → password ≠ "" →
      registerRoute now [] username email password password =
        ([injectUser ⟨username, some email, some password, now, true,
          false, [], []⟩], RegResult.ok)) ∧
    (∀ (now : Nat) (stored : List RawUser) (username email password : String),
      username ≠ "" → password ≠ "" → stored ≠ [] →
      (∀ r ∈ stored, r.username ≠ username) →
      (registerRoute now stored username email password password).2 =
          RegResult.ok ∧
        (registerRoute now stored username email password
            password).1.getLast? =
          some (injectUser ⟨username, some email, some password, now, false,
            false, [], []⟩)) ∧
    (∀ (now : Nat) (stored : List RawUser) (username email password : String),
      username ≠ "" → password ≠ "" →
      (normaliseUsers now stored).2 = false →
      (∃ r ∈ stored, r.username = username) →
      registerRoute now stored username email password password =
        (stored, RegResult.duplicate)) := by
  refine ⟨?_, ?_, ?_⟩
  · intro now username email password hu hp
    rw [registerRoute, if_neg (by simp [hu, hp]), if_neg (by simp)]
    simp [normaliseUsers]
  · intro now stored username email password hu hp hne hfresh
    have hany : (normaliseUsers now stored).1.any
        (fun u => u.username == username) = false := by
      rw [List.any_eq_false]
      intro u hu'
      rw [normaliseUsers_fst] at hu'
      rcases List.mem_map.mp hu' with ⟨r, hr, rfl⟩
      simp [normaliseUser_username]
      exact hfresh r hr
    have hempty : (normaliseUsers now stored).1.isEmpty = false := by
      rw [normaliseUsers_fst]
      rcases stored with _ | ⟨r, rs⟩
      · exact absurd rfl hne
      · rfl
    rw [registerRoute, if_neg (by simp [hu, hp]), if_neg (by simp)]
    simp only [hany, hempty, Bool.false_eq_true, if_false]
    constructor
    · trivial
    · simp
  · intro now stored username email password hu hp hchanged ⟨r, hr, hrname⟩
    have hany : (normaliseUsers now stored).1.any
        (fun u => u.username == username) = true := by
      rw [List.any_eq_true]
      refine ⟨(normaliseUser now r).1, ?_, ?_⟩
      · rw [normaliseUsers_fst]
        exact List.mem_map_of_mem _ hr
      · simp [normaliseUser_username, hrname]
    rw [registerRoute, if_neg (by simp [hu, hp]), if_neg (by simp)]
    simp only [hany, hchanged, Bool.false_eq_true, if_true, if_false]

/-- C8 witness: alice registers first (admin), bob registers second
(not admin), a second alice is rejected with the store untouched. -/
theorem register_first_admin_and_duplicate_witness :
    (registerRoute 1 [] "alice" "a@x" "pw" "pw" =
      ([injectUser ⟨"alice", some "a@x", some "pw", 1, true,
        false, [], []⟩], RegResult.ok)) ∧
    ((registerRoute 2 [⟨"alice", some "a@x", some "pw", some 1, some true,
        some false, some [], some []⟩] "bob" "b@x" "pw2" "pw2").2 =
      RegResult.ok ∧
     (registerRoute 2 [⟨"alice", some "a@x", some "pw", some 1, some true,
        some false, some [], some []⟩] "bob" "b@x" "pw2"
        "pw2").1.getLast? =
      some (injectUser ⟨"bob", some "b@x", some "pw2", 2, false,
        false, [], []⟩)) ∧
    (registerRoute 3 [⟨"alice", some "a@x", some "pw", some 1, some true,
        some false, some [], some []⟩] "alice" "" "q" "q" =
      ([⟨"alice", some "a@x", some "pw", some 1, some true,
        some false, some [], some []⟩], RegResult.duplicate)) :=
  ⟨register_first_admin_and_duplicate.1 1 "alice" "a@x" "pw"
    (by decide) (by decide),
   register_first_admin_and_duplicate.2.1 2
    [⟨"alice", some "a@x", some "pw", some 1, some true,
      some false, some [], some []⟩] "bob" "b@x" "pw2"
    (by decide) (by decide) (by decide) (by decide),
   register_first_admin_and_duplicate.2.2 3
    [⟨"alice", some "a@x", some "pw", some 1, some true,
      some false, some [], some []⟩] "alice" "" "q"
    (by decide) (by decide) (by decide)
    ⟨⟨"alice", some "a@x", some "pw", some 1, some true,
      some false, some [], some []⟩, by decide, rfl⟩⟩

end RegisterClaim

section LoginClaim

/-- C9: on a well-formed stored collection (all fields present, truthy
join dates, unique usernames), a banned user with the correct
credential gets the distinct `banned` failure; login succeeds,
returning the user, exactly when the username/credential pair matches a
record that is not banned; and the three outcomes are pairwise
distinct, so callers can present different messages. -/
theorem authenticate_banned_distinct (now : Nat) (us : List User)
    (username password : String)
    (hJ : ∀ u ∈ us, u.joinedAt ≠ 0)
    (hnd : (us.map (fun u => u.username)).Nodup) :
    (∀ u ∈ us, u.username = username → u.passwordPlain = some password →
      u.banned = true →
      loginRoute now (us.map injectUser) username password =
        LoginResult.banned) ∧
    (∀ u : User,
      loginRoute now (us.map injectUser) username password =
        LoginResult.success u ↔
      (u ∈ us ∧ u.username = username ∧ u.passwordPlain = some password ∧
        u.banned = false)) ∧
    (∀ u : User, LoginResult.success u ≠ LoginResult.banned) ∧
    LoginResult.banned ≠ LoginResult.invalidCredential := by
  have hn := normaliseUsers_injectUser now us hJ
  have hpk : ∀ x : User,
      (x.username == username && x.passwordPlain == some password) = true →
      x.username = username := by
    intro x hx
    have hx' : x.username = username ∧ x.passwordPlain = some password := by
      simpa using hx
    exact hx'.1
  refine ⟨?_, ?_, ?_, ?_⟩
  · intro u hu h1 h2 h3
    have hfind : us.find? (fun x =>
        x.username == username && x.passwordPlain == some password) =
        some u :=
      find?_eq_some_of_nodup_key (fun x => x.username) us hnd _ username
        hpk u hu (by simp [h1, h2])
    rw [loginRoute, hn]
    simp only [hfind, h3, if_true]
  · intro u
    constructor
    · intro hres
      rw [loginRoute, hn] at hres
      rcases hfind : us.find? (fun x =>
          x.username == username && x.passwordPlain == some password)
        with _ | u'
      · rw [hfind] at hres
        cases hres
      · rw [hfind] at hres
        dsimp only at hres
        rcases hb : u'.banned with _ | _
        · rw [hb] at hres
          simp only [Bool.false_eq_true, if_false] at hres
          cases hres
          have hp := List.find?_some hfind
          have hp' : u.username = username ∧
              u.passwordPlain = some password := by
            simpa using hp
          exact ⟨List.mem_of_find?_eq_some hfind, hp'.1, hp'.2, hb⟩
        · rw [hb] at hres
          simp at hres
    · rintro ⟨hmem, h1, h2, h3⟩
      have hfind : us.find? (fun x =>
          x.username == username && x.passwordPlain == some password) =
          some u :=
        find?_eq_some_of_nodup_key (fun x => x.username) us hnd _ username
          hpk u hmem (by simp [h1, h2])
      rw [loginRoute, hn]
      simp only [hfind, h3, Bool.false_eq_true, if_false]
  · intro u hc
    cases hc
  · intro hc
    cases hc

/-- C9 witness: banned bob with the right credential is rejected as
banned; unbanned alice logs in successfully. -/
theorem authenticate_banned_distinct_witness :
    (∀ u ∈ [(⟨"bob", none, some "pw", 1, false, true, [], []⟩ : User),
        ⟨"alice", none, some "pw2", 2, false, false, [], []⟩],
      u.joinedAt ≠ 0) ∧
    ((∀ u ∈ [(⟨"bob", none, some "pw", 1, false, true, [], []⟩ : User),
        ⟨"alice", none, some "pw2", 2, false, false, [], []⟩],
      u.username = "bob" → u.passwordPlain = some "pw" →
      u.banned = true →
      loginRoute 5 ([(⟨"bob", none, some "pw", 1, false, true, [],
          []⟩ : User),
        ⟨"alice", none, some "pw2", 2, false, false, [], []⟩].map
          injectUser) "bob" "pw" = LoginResult.banned) ∧
    (∀ u : User,
      loginRoute 5 ([(⟨"bob", none, some "pw", 1, false, true, [],
          []⟩ : User),
        ⟨"alice", none, some "pw2", 2, false, false, [], []⟩].map
          injectUser) "bob" "pw" = LoginResult.success u ↔
      (u ∈ [(⟨"bob", none, some "pw", 1, false, true, [], []⟩ : User),
        ⟨"alice", none, some "pw2", 2, false, false, [], []⟩] ∧
        u.username = "bob" ∧ u.passwordPlain = some "pw" ∧
        u.banned = false)) ∧
    (∀ u : User, LoginResult.success u ≠ LoginResult.banned) ∧
    LoginResult.banned ≠ LoginResult.invalidCredential) :=
  ⟨by decide, authenticate_banned_distinct 5
    [⟨"bob", none, some "pw", 1, false, true, [], []⟩,
     ⟨"alice", none, some "pw2", 2, false, false, [], []⟩]
    "bob" "pw" (by decide) (by decide)⟩

end LoginClaim

section DeleteClaim

theorem injectPost_id (p : Post) : (injectPost p).id = p.id := rfl

/-- C10: when several posts share an id (timestamp-derived ids permit
this), the author delete route evaluates its not-found and ownership
checks against the first post with that id only, but a successful
delete filters out every post with that id; a mismatched first author
forbids the delete even if a later same-id post belongs to the
requester. The admin delete route likewise removes every post with the
id, and — having no not-found branch at all — reports no error when no
such post exists, keeping all other posts. -/
theorem delete_removes_all_duplicate_ids :
    (∀ (ps : List Post) (id : Int) (requester : String) (p : Post),
      ps.find? (fun q => q.id == id) = some p →
      p.author = requester →
      deletePostRoute (ps.map injectPost) id requester =
        ((ps.filter (fun q => ¬(q.id == id))).map injectPost,
          DelResult.ok) ∧
      (∀ q ∈ (deletePostRoute (ps.map injectPost) id requester).1,
        q.id ≠ id)) ∧
    (∀ (ps : List Post) (id : Int) (requester : String) (p : Post),
      ps.find? (fun q => q.id == id) = some p →
      p.author ≠ requester →
      deletePostRoute (ps.map injectPost) id requester =
        (ps.map injectPost, DelResult.forbidden)) ∧
    (∀ (stored : List RawPost) (id : Int),
      (∀ q ∈ adminDeletePostRoute stored id, q.id ≠ id) ∧
      (∀ q ∈ (normalisePosts stored).1, q.id ≠ id →
        injectPost q ∈ adminDeletePostRoute stored id)) := by
  have hnormfst : ∀ ps : List Post,
      (normalisePosts (ps.map injectPost)).1 = ps := by
    intro ps
    rw [normalisePosts_injectPost]
  refine ⟨?_, ?_, ?_⟩
  · intro ps id requester p hfind hauth
    have hroute : deletePostRoute (ps.map injectPost) id requester =
        ((ps.filter (fun q => ¬(q.id == id))).map injectPost,
          DelResult.ok) := by
      rw [deletePostRoute, hnormfst, hfind]
      dsimp only
      rw [if_neg (by simp [hauth])]
    refine ⟨hroute, ?_⟩
    rw [hroute]
    intro q hq
    rcases List.mem_map.mp hq with ⟨q', hq', rfl⟩
    have := List.of_mem_filter hq'
    rw [injectPost_id]
    intro hc
    rw [hc] at this
    simp at this
  · intro ps id requester p hfind hauth
    rw [deletePostRoute, hnormfst, hfind]
    dsimp only
    rw [if_pos hauth]
  · intro stored id
    constructor
    · intro q hq
      rw [adminDeletePostRoute] at hq
      rcases List.mem_map.mp hq with ⟨q', hq', rfl⟩
      have := List.of_mem_filter hq'
      rw [injectPost_id]
      intro hc
      rw [hc] at this
      simp at this
    · intro q hq hne
      rw [adminDeletePostRoute]
      refine List.mem_map_of_mem _ (List.mem_filter.mpr ⟨hq, ?_⟩)
      simp [hne]

/-- C10 witness: two posts share id 5 with different authors; the
first author's delete removes both; carol (owner of neither first
post) is forbidden; the admin route on an id with no post reports no
error and keeps everything. -/
theorem delete_removes_all_duplicate_ids_witness :
    ([(⟨5, "t1", "", "f", "alice", 5, 0, [], []⟩ : Post),
      ⟨5, "t2", "", "g", "bob", 5, 0, [], []⟩].find?
        (fun q => q.id == 5) =
      some ⟨5, "t1", "", "f", "alice", 5, 0, [], []⟩) ∧
    (deletePostRoute ([(⟨5, "t1", "", "f", "alice", 5, 0, [],
        []⟩ : Post),
      ⟨5, "t2", "", "g", "bob", 5, 0, [], []⟩].map injectPost) 5
        "alice" =
      (([(⟨5, "t1", "", "f", "alice", 5, 0, [], []⟩ : Post),
        ⟨5, "t2", "", "g", "bob", 5, 0, [], []⟩].filter
          (fun q => ¬(q.id == 5))).map injectPost, DelResult.ok) ∧
      (∀ q ∈ (deletePostRoute ([(⟨5, "t1", "", "f", "alice", 5, 0, [],
          []⟩ : Post),
        ⟨5, "t2", "", "g", "bob", 5, 0, [], []⟩].map injectPost) 5
          "alice").1, q.id ≠ 5)) ∧
    (deletePostRoute ([(⟨5, "t1", "", "f", "alice", 5, 0, [],
        []⟩ : Post),
      ⟨5, "t2", "", "g", "bob", 5, 0, [], []⟩].map injectPost) 5
        "carol" =
      ([(⟨5, "t1", "", "f", "alice", 5, 0, [], []⟩ : Post),
        ⟨5, "t2", "", "g", "bob", 5, 0, [], []⟩].map injectPost,
        DelResult.forbidden)) ∧
    ((∀ q ∈ adminDeletePostRoute
        [⟨5, "t1", "", "f", "alice", 5, some 0, some [], some []⟩] 99,
      q.id ≠ 99) ∧
    (∀ q ∈ (normalisePosts
        [⟨5, "t1", "", "f", "alice", 5, some 0, some [], some []⟩]).1,
      q.id ≠ 99 →
      injectPost q ∈ adminDeletePostRoute
        [⟨5, "t1", "", "f", "alice", 5, some 0, some [], some []⟩] 99)) :=
  ⟨by decide,
   delete_removes_all_duplicate_ids.1
    [⟨5, "t1", "", "f", "alice", 5, 0, [], []⟩,
     ⟨5, "t2", "", "g", "bob", 5, 0, [], []⟩] 5 "alice"
    ⟨5, "t1", "", "f", "alice", 5, 0, [], []⟩ (by decide) (by decide),
   delete_removes_all_duplicate_ids.2.1
    [⟨5, "t1", "", "f", "alice", 5, 0, [], []⟩,
     ⟨5, "t2", "", "g", "bob", 5, 0, [], []⟩] 5 "carol"
    ⟨5, "t1", "", "f", "alice", 5, 0, [], []⟩ (by decide) (by decide),
   delete_removes_all_duplicate_ids.2.2
    [⟨5, "t1", "", "f", "alice", 5, some 0, some [], some []⟩] 99⟩

end DeleteClaim

section LikesInvariantClaim

/-- Likes-count invariant on a normalized posts collection. -/
def postsInvN (ps : List Post) : Prop :=
  ∀ p ∈ ps, p.likes = (p.likedBy.length : Int)

theorem invN_of_inv (stored : List RawPost) (h : postsInv stored) :
    postsInvN (normalisePosts stored).1 := by
  intro p hp
  rcases List.mem_map.mp hp with ⟨q, hq, rfl⟩
  rw [normalisePost_likes, normalisePost_likedBy]
  exact h q hq

theorem inv_of_invN (ps : List Post) (h : postsInvN ps) :
    postsInv (ps.map injectPost) := by
  intro q hq
  rcases List.mem_map.mp hq with ⟨p, hp, rfl⟩
  rw [rLikes_injectPost, rLikedBy_injectPost]
  exact h p hp

theorem togglePost_inv (p : Post) (u : String)
    (h : p.likes = (p.likedBy.length : Int)) :
    (togglePost u p).likes = ((togglePost u p).likedBy.length : Int) := by
  by_cases hm : u ∈ p.likedBy
  · have hpos : 1 ≤ p.likedBy.length := List.length_pos.mpr (by
      intro hc
      rw [hc] at hm
      cases hm)
    have hcl : ¬ (p.likes - 1 < 0) := by omega
    rw [togglePost, if_pos hm]
    dsimp only
    rw [if_neg hcl, List.length_erase_of_mem hm, h]
    omega
  · rw [togglePost, if_neg hm]
    dsimp only
    rw [List.length_append, h]
    have h1 : ([u] : List String).length = 1 := rfl
    rw [h1]
    push_cast
    omega

theorem applyPostOp_inv (stored : List RawPost) (op : PostOp)
    (h : postsInv stored) : postsInv (applyPostOp stored op) := by
  cases op with
  | upload now a t c f =>
    show postsInv (uploadRoute now stored a t c f)
    rw [uploadRoute]
    apply inv_of_invN
    intro p hp
    rcases List.mem_append.mp hp with h1 | h1
    · exact invN_of_inv stored h p h1
    · rcases List.mem_singleton.mp h1 with rfl
      simp
  | toggle id u =>
    show postsInv (toggleLikeRoute stored id u)
    rw [toggleLikeRoute]
    rcases hfind : (normalisePosts stored).1.find? (fun p => p.id == id)
      with _ | p
    · rw [hfind]
      exact h
    · rw [hfind]
      apply inv_of_invN
      exact forall_mem_updateFirst _ _ _ _ (invN_of_inv stored h)
        (fun q hq _ => togglePost_inv q u (invN_of_inv stored h q hq))
  | addComment now id a txt =>
    show postsInv (addCommentRoute now stored id a txt)
    rw [addCommentRoute]
    by_cases ht : txt.trim = ""
    · rw [if_pos ht]
      exact h
    · rw [if_neg ht]
      dsimp only
      rcases hfind : (normalisePosts stored).1.find? (fun p => p.id == id)
        with _ | p
      · rw [hfind]
        exact h
      · rw [hfind]
        apply inv_of_invN
        exact forall_mem_updateFirst _ _ _ _ (invN_of_inv stored h)
          (fun q hq _ => invN_of_inv stored h q hq)
  | deleteComment pid cid r =>
    show postsInv (deleteCommentRoute stored pid cid r)
    rw [deleteCommentRoute]
    rcases hfind : (normalisePosts stored).1.find? (fun p => p.id == pid)
      with _ | p
    · rw [hfind]
      exact h
    · rw [hfind]
      dsimp only
      rcases hidx : p.comments.findIdx? (fun c => c.id == cid) with _ | idx
      · rw [hidx]
        exact h
      · rw [hidx]
        dsimp only
        by_cases hauth : (p.comments.getD idx ⟨0, "", "", 0⟩).author ≠ r ∧
            p.author ≠ r
        · rw [if_pos hauth]
          exact h
        · rw [if_neg hauth]
          apply inv_of_invN
          exact forall_mem_updateFirst _ _ _ _ (invN_of_inv stored h)
            (fun q hq _ => invN_of_inv stored h q hq)
  | norm =>
    exact h

theorem runPostOps_inv_aux (ops : List PostOp) :
    ∀ stored : List RawPost, postsInv stored →
      postsInv (ops.foldl applyPostOp stored) := by
  induction ops with
  | nil =>
    intro stored h
    exact h
  | cons op rest ih =>
    intro stored h
    exact ih (applyPostOp stored op) (applyPostOp_inv stored op h)

/-- C1: starting from the initial (empty) posts store, after any
sequence of core post operations — creation, like toggling, comment
addition, comment deletion, bare load-and-normalize — every stored
post's `likes` equals the size of its `likedBy` set; the same holds for
the in-memory collection produced by normalization on load; and every
core operation preserves the invariant on any collection satisfying
it. -/
theorem likes_count_invariant :
    (∀ ops : List PostOp, ∀ q ∈ runPostOps ops,
      rLikes q = ((rLikedBy q).length : Int)) ∧
    (∀ ops : List PostOp, ∀ p ∈ (normalisePosts (runPostOps ops)).1,
      p.likes = (p.likedBy.length : Int)) ∧
    (∀ (stored : List RawPost) (op : PostOp), postsInv stored →
      postsInv (applyPostOp stored op)) := by
  have hrun : ∀ ops : List PostOp, postsInv (runPostOps ops) := by
    intro ops
    exact runPostOps_inv_aux ops [] (by
      intro q hq
      cases hq)
  exact ⟨fun ops => hrun ops,
    fun ops => invN_of_inv _ (hrun ops),
    applyPostOp_inv⟩

/-- C1 witness: alice uploads a post, bob likes it; the stored record
has one like and one liker. -/
theorem likes_count_invariant_witness :
    rLikes ⟨5, "t", "c", "f.jpg", "alice", 5, some 1, some ["bob"],
        some []⟩ =
      ((rLikedBy ⟨5, "t", "c", "f.jpg", "alice", 5, some 1, some ["bob"],
        some []⟩).length : Int) :=
  likes_count_invariant.1
    [PostOp.upload 5 "alice" "t" "c" "f.jpg", PostOp.toggle 5 "bob"]
    ⟨5, "t", "c", "f.jpg", "alice", 5, some 1, some ["bob"], some []⟩
    (by decide)

end LikesInvariantClaim

section FollowInvariantClaim

/-- Transfer of the follow-graph invariant along a record mapping that
preserves the username and both relationship lists. -/
theorem social_map {α β : Type} (key1 : α → String)
    (fol1 fog1 : α → List String) (key2 : β → String)
    (fol2 fog2 : β → List String) (g : α → β)
    (hk : ∀ x, key2 (g x) = key1 x)
    (hf : ∀ x, fol2 (g x) = fol1 x)
    (hg : ∀ x, fog2 (g x) = fog1 x)
    (l : List α)
    (h1 : (l.map key1).Nodup)
    (h2 : ∀ a ∈ l, ∀ nm : String, (nm ∈ fol1 a ∨ nm ∈ fog1 a) →
      ∃ b ∈ l, key1 b = nm)
    (h3 : ∀ a ∈ l, ∀ b ∈ l, key1 a ≠ key1 b →
      (key1 a ∈ fol1 b ↔ key1 b ∈ fog1 a)) :
    ((l.map g).map key2).Nodup ∧
    (∀ a ∈ l.map g, ∀ nm : String, (nm ∈ fol2 a ∨ nm ∈ fog2 a) →
      ∃ b ∈ l.map g, key2 b = nm) ∧
    (∀ a ∈ l.map g, ∀ b ∈ l.map g, key2 a ≠ key2 b →
      (key2 a ∈ fol2 b ↔ key2 b ∈ fog2 a)) := by
  refine ⟨?_, ?_, ?_⟩
  · rw [List.map_map]
    have he : l.map (key2 ∘ g) = l.map key1 :=
      List.map_congr_left (fun x _ => hk x)
    rw [he]
    exact h1
  · intro a' ha' nm hnm
    rcases List.mem_map.mp ha' with ⟨a, ha, rfl⟩
    rw [hf, hg] at hnm
    rcases h2 a ha nm hnm with ⟨b, hb, hbn⟩
    exact ⟨g b, List.mem_map_of_mem g hb, (hk b).trans hbn⟩
  · intro a' ha' b' hb' hne
    rcases List.mem_map.mp ha' with ⟨a, ha, rfl⟩
    rcases List.mem_map.mp hb' with ⟨b, hb, rfl⟩
    rw [hk, hk] at hne
    rw [hk, hk, hf, hg]
    exact h3 a ha b hb hne

theorem usersInvN_of_inv (now : Nat) (stored : List RawUser)
    (h : usersInv stored) : usersInvN (normaliseUsers now stored).1 := by
  obtain ⟨h1, h2, h3⟩ := h
  rw [normaliseUsers_fst]
  exact social_map (fun r => r.username) rFollowers rFollowing
    (fun u => u.username) (fun u => u.followers) (fun u => u.following)
    (fun r => (normaliseUser now r).1)
    (fun r => normaliseUser_username now r)
    (fun r => normaliseUser_followers now r)
    (fun r => normaliseUser_following now r)
    stored h1 h2 h3

theorem usersInv_of_invN (us : List User) (h : usersInvN us) :
    usersInv (us.map injectUser) := by
  obtain ⟨h1, h2, h3⟩ := h
  exact social_map (fun u => u.username) (fun u => u.followers)
    (fun u => u.following) (fun r => r.username) rFollowers rFollowing
    injectUser (fun u => rfl) (fun u => rfl) (fun u => rfl)
    us h1 h2 h3

theorem usersInvN_map_fields (us : List User) (g : User → User)
    (hk : ∀ u, (g u).username = u.username)
    (hf : ∀ u, (g u).followers = u.followers)
    (hg : ∀ u, (g u).following = u.following)
    (h : usersInvN us) : usersInvN (us.map g) := by
  obtain ⟨h1, h2, h3⟩ := h
  exact social_map (fun u => u.username) (fun u => u.followers)
    (fun u => u.following) (fun u => u.username) (fun u => u.followers)
    (fun u => u.following) g hk hf hg us h1 h2 h3

theorem usersInvN_append_fresh (us : List User) (nu : User)
    (h : usersInvN us) (hfresh : ∀ a ∈ us, a.username ≠ nu.username)
    (hfol : nu.followers = []) (hfog : nu.following = []) :
    usersInvN (us ++ [nu]) := by
  obtain ⟨h1, h2, h3⟩ := h
  have hclosed : ∀ a ∈ us, ∀ nm : String,
      (nm ∈ a.followers ∨ nm ∈ a.following) → nm ≠ nu.username := by
    intro a ha nm hnm hc
    rcases h2 a ha nm hnm with ⟨b, hb, hbn⟩
    exact hfresh b hb (hbn.trans hc)
  refine ⟨?_, ?_, ?_⟩
  · rw [List.map_append]
    rw [List.nodup_append]
    refine ⟨h1, List.nodup_singleton _, ?_⟩
    intro x hx hx'
    rcases List.mem_map.mp hx with ⟨a, ha, rfl⟩
    rcases List.mem_singleton.mp hx' with h'
    exact hfresh a ha h'
  · intro a ha nm hnm
    rcases List.mem_append.mp ha with ha' | ha'
    · rcases h2 a ha' nm hnm with ⟨b, hb, hbn⟩
      exact ⟨b, List.mem_append_left _ hb, hbn⟩
    · rcases List.mem_singleton.mp ha' with rfl
      rw [hfol, hfog] at hnm
      rcases hnm with hc | hc <;> cases hc
  · intro a ha b hb hne
    rcases List.mem_append.mp ha with ha' | ha' <;>
      rcases List.mem_append.mp hb with hb' | hb'
    · exact h3 a ha' b hb' hne
    · rcases List.mem_singleton.mp hb' with rfl
      rw [hfol]
      constructor
      · intro hc
        exact absurd hc (List.not_mem_nil _)
      · intro hc
        exact absurd rfl (hclosed a ha' b.username (Or.inr hc))
    · rcases List.mem_singleton.mp ha' with rfl
      rw [hfog]
      constructor
      · intro hc
        exact absurd rfl (hclosed b hb' a.username (Or.inl hc))
      · intro hc
        exact absurd hc (List.not_mem_nil _)
    · rcases List.mem_singleton.mp ha' with rfl
      rcases List.mem_singleton.mp hb' with rfl
      exact absurd rfl hne

/-- Effect of the follow route on the normalized collection, written
as a single per-record function (the two `updateFirst` passes fused):
the follower gains `t` in `following`, the target gains `m` in
`followers`, both idempotently. -/
def followFuse (m t : String) (u : User) : User :=
  if u.username = m then
    { u with following :=
      if t ∈ u.following then u.following else u.following ++ [t] }
  else if u.username = t then
    { u with followers :=
      if m ∈ u.followers then u.followers else u.followers ++ [m] }
  else u

theorem followFuse_username (m t : String) (hmt : m ≠ t) (u : User) :
    (followFuse m t u).username = u.username := by
  by_cases h1 : u.username = m
  · simp [followFuse, h1]
  · by_cases h2 : u.username = t
    · simp [followFuse, h1, h2, Ne.symm hmt]
    · simp [followFuse, h1, h2]

theorem followFuse_followers (m t : String) (hmt : m ≠ t) (u : User) :
    (followFuse m t u).followers =
      if u.username = t then
        (if m ∈ u.followers then u.followers else u.followers ++ [m])
      else u.followers := by
  by_cases h1 : u.username = m
  · simp [followFuse, h1, hmt, Ne.symm hmt]
  · by_cases h2 : u.username = t
    · simp [followFuse, h1, h2, Ne.symm hmt]
    · simp [followFuse, h1, h2]

theorem followFuse_following (m t : String) (hmt : m ≠ t) (u : User) :
    (followFuse m t u).following =
      if u.username = m then
        (if t ∈ u.following then u.following else u.following ++ [t])
      else u.following := by
  by_cases h1 : u.username = m
  · simp [followFuse, h1]
  · by_cases h2 : u.username = t
    · simp [followFuse, h1, h2, Ne.symm hmt]
    · simp [followFuse, h1, h2]

theorem usersInvN_follow (us : List User) (m t : String) (hmt : m ≠ t)
    (hm : ∃ a ∈ us, a.username = m) (ht : ∃ a ∈ us, a.username = t)
    (h : usersInvN us) : usersInvN (us.map (followFuse m t)) := by
  obtain ⟨h1, h2, h3⟩ := h
  refine ⟨?_, ?_, ?_⟩
  · rw [List.map_map]
    have he : us.map ((fun u => u.username) ∘ followFuse m t) =
        us.map (fun u => u.username) :=
      List.map_congr_left (fun x _ => followFuse_username m t hmt x)
    rw [he]
    exact h1
  · intro a' ha' nm hnm
    rcases List.mem_map.mp ha' with ⟨a, ha, rfl⟩
    rw [followFuse_followers m t hmt, followFuse_following m t hmt] at hnm
    have hwit : ∀ c ∈ us, c.username = nm →
        ∃ b ∈ us.map (followFuse m t), b.username = nm := by
      intro c hc hcn
      exact ⟨followFuse m t c, List.mem_map_of_mem _ hc,
        (followFuse_username m t hmt c).trans hcn⟩
    have hold : (nm ∈ a.followers ∨ nm ∈ a.following) →
        ∃ b ∈ us.map (followFuse m t), b.username = nm := by
      intro hnm'
      rcases h2 a ha nm hnm' with ⟨b, hb, hbn⟩
      exact hwit b hb hbn
    rcases hnm with hnm' | hnm'
    · by_cases hat : a.username = t
      · rw [if_pos hat, mem_addIfAbsent] at hnm'
        rcases hnm' with rfl | hnm''
        · rcases hm with ⟨c, hc, hcn⟩
          exact hwit c hc hcn
        · exact hold (Or.inl hnm'')
      · rw [if_neg hat] at hnm'
        exact hold (Or.inl hnm')
    · by_cases ham : a.username = m
      · rw [if_pos ham, mem_addIfAbsent] at hnm'
        rcases hnm' with rfl | hnm''
        · rcases ht with ⟨c, hc, hcn⟩
          exact hwit c hc hcn
        · exact hold (Or.inr hnm'')
      · rw [if_neg ham] at hnm'
        exact hold (Or.inr hnm')
  · intro a' ha' b' hb' hne
    rcases List.mem_map.mp ha' with ⟨a, ha, rfl⟩
    rcases List.mem_map.mp hb' with ⟨b, hb, rfl⟩
    rw [followFuse_username m t hmt, followFuse_username m t hmt] at hne
    rw [followFuse_username m t hmt, followFuse_username m t hmt,
      followFuse_followers m t hmt, followFuse_following m t hmt]
    by_cases hbt : b.username = t
    · rw [if_pos hbt]
      by_cases ham : a.username = m
      · rw [if_pos ham, mem_addIfAbsent, mem_addIfAbsent]
        constructor
        · intro _
          exact Or.inl hbt
        · intro _
          exact Or.inl ham
      · rw [if_neg ham, mem_addIfAbsent]
        constructor
        · intro hc
          rcases hc with hc | hc
          · exact absurd hc ham
          · exact (h3 a ha b hb hne).mp hc
        · intro hc
          exact Or.inr ((h3 a ha b hb hne).mpr hc)
    · rw [if_neg hbt]
      by_cases ham : a.username = m
      · rw [if_pos ham, mem_addIfAbsent]
        constructor
        · intro hc
          exact Or.inr ((h3 a ha b hb hne).mp hc)
        · intro hc
          rcases hc with hc | hc
          · exact absurd hc hbt
          · exact (h3 a ha b hb hne).mpr hc
      · rw [if_neg ham]
        exact h3 a ha b hb hne

/-- Effect of the unfollow route on the normalized collection, the two
`updateFirst` passes fused: the follower loses `t` from `following`,
the target loses `m` from `followers`. -/
def unfollowFuse (m t : String) (u : User) : User :=
  if u.username = m then
    { u with following := u.following.filter (fun x => x ≠ t) }
  else if u.username = t then
    { u with followers := u.followers.filter (fun x => x ≠ m) }
  else u

theorem unfollowFuse_username (m t : String) (hmt : m ≠ t) (u : User) :
    (unfollowFuse m t u).username = u.username := by
  by_cases h1 : u.username = m
  · simp [unfollowFuse, h1]
  · by_cases h2 : u.username = t
    · simp [unfollowFuse, h1, h2, Ne.symm hmt]
    · simp [unfollowFuse, h1, h2]

theorem unfollowFuse_followers (m t : String) (hmt : m ≠ t) (u : User) :
    (unfollowFuse m t u).followers =
      if u.username = t then u.followers.filter (fun x => x ≠ m)
      else u.followers := by
  by_cases h1 : u.username = m
  · simp [unfollowFuse, h1, hmt, Ne.symm hmt]
  · by_cases h2 : u.username = t
    · simp [unfollowFuse, h1, h2, Ne.symm hmt]
    · simp [unfollowFuse, h1, h2]

theorem unfollowFuse_following (m t : String) (hmt : m ≠ t) (u : User) :
    (unfollowFuse m t u).following =
      if u.username = m then u.following.filter (fun x => x ≠ t)
      else u.following := by
  by_cases h1 : u.username = m
  · simp [unfollowFuse, h1]
  · by_cases h2 : u.username = t
    · simp [unfollowFuse, h1, h2, Ne.symm hmt]
    · simp [unfollowFuse, h1, h2]

theorem usersInvN_unfollow (us : List User) (m t : String) (hmt : m ≠ t)
    (h : usersInvN us) : usersInvN (us.map (unfollowFuse m t)) := by
  obtain ⟨h1, h2, h3⟩ := h
  refine ⟨?_, ?_, ?_⟩
  · rw [List.map_map]
    have he : us.map ((fun u => u.username) ∘ unfollowFuse m t) =
        us.map (fun u => u.username) :=
      List.map_congr_left (fun x _ => unfollowFuse_username m t hmt x)
    rw [he]
    exact h1
  · intro a' ha' nm hnm
    rcases List.mem_map.mp ha' with ⟨a, ha, rfl⟩
    rw [unfollowFuse_followers m t hmt, unfollowFuse_following m t hmt]
      at hnm
    have hnm' : nm ∈ a.followers ∨ nm ∈ a.following := by
      rcases hnm with hc | hc
      · by_cases hat : a.username = t
        · rw [if_pos hat, mem_filter_ne] at hc
          exact Or.inl hc.1
        · rw [if_neg hat] at hc
          exact Or.inl hc
      · by_cases ham : a.username = m
        · rw [if_pos ham, mem_filter_ne] at hc
          exact Or.inr hc.1
        · rw [if_neg ham] at hc
          exact Or.inr hc
    rcases h2 a ha nm hnm' with ⟨b, hb, hbn⟩
    exact ⟨unfollowFuse m t b, List.mem_map_of_mem _ hb,
      (unfollowFuse_username m t hmt b).trans hbn⟩
  · intro a' ha' b' hb' hne
    rcases List.mem_map.mp ha' with ⟨a, ha, rfl⟩
    rcases List.mem_map.mp hb' with ⟨b, hb, rfl⟩
    rw [unfollowFuse_username m t hmt, unfollowFuse_username m t hmt] at hne
    rw [unfollowFuse_username m t hmt, unfollowFuse_username m t hmt,
      unfollowFuse_followers m t hmt, unfollowFuse_following m t hmt]
    by_cases hbt : b.username = t
    · rw [if_pos hbt]
      by_cases ham : a.username = m
      · rw [if_pos ham, mem_filter_ne, mem_filter_ne]
        constructor
        · intro hc
          exact absurd ham hc.2
        · intro hc
          exact absurd hbt hc.2
      · rw [if_neg ham, mem_filter_ne]
        constructor
        · intro hc
          exact (h3 a ha b hb hne).mp hc.1
        · intro hc
          exact ⟨(h3 a ha b hb hne).mpr hc, ham⟩
    · rw [if_neg hbt]
      by_cases ham : a.username = m
      · rw [if_pos ham, mem_filter_ne]
        constructor
        · intro hc
          exact ⟨(h3 a ha b hb hne).mp hc, hbt⟩
        · intro hc
          exact (h3 a ha b hb hne).mpr hc.1
      · rw [if_neg ham]
        exact h3 a ha b hb hne

theorem updateFirst_username_eq_map (n : String) (f : User → User)
    (l : List User) (h : (l.map (fun u => u.username)).Nodup) :
    updateFirst (fun u => u.username == n) f l =
      l.map (fun x => if x.username = n then f x else x) :=
  updateFirst_eq_map_of_nodup (fun u => u.username) n f l h

theorem followRoute_inv (now : Nat) (stored : List RawUser) (m t : String)
    (h : usersInv stored) : usersInv (followRoute now stored m t) := by
  rw [followRoute]
  by_cases hmt : t = m
  · rw [if_pos hmt]
    exact h
  · rw [if_neg hmt]
    dsimp only
    have hN := usersInvN_of_inv now stored h
    have hnd : ((normaliseUsers now stored).1.map
        (fun u => u.username)).Nodup := hN.1
    rcases hfm : (normaliseUsers now stored).1.find?
        (fun u => u.username == m) with _ | me
    · rw [hfm]
      dsimp only
      by_cases hch : (normaliseUsers now stored).2
      · rw [if_pos hch]
        exact usersInv_of_invN _ hN
      · rw [if_neg hch]
        exact h
    · rw [hfm]
      rcases hft : (normaliseUsers now stored).1.find?
          (fun u => u.username == t) with _ | tg
      · rw [hft]
        dsimp only
        by_cases hch : (normaliseUsers now stored).2
        · rw [if_pos hch]
          exact usersInv_of_invN _ hN
        · rw [if_neg hch]
          exact h
      · rw [hft]
        dsimp only
        rw [updateFirst_username_eq_map m _ _ hnd]
        have hnd1 : (((normaliseUsers now stored).1.map (fun x =>
            if x.username = m then
              { x with following := if t ∈ x.following then x.following
                else x.following ++ [t] }
            else x)).map (fun u => u.username)).Nodup := by
          rw [List.map_map]
          have he : (normaliseUsers now stored).1.map ((fun u =>
              u.username) ∘ (fun x =>
              if x.username = m then
                { x with following := if t ∈ x.following then x.following
                  else x.following ++ [t] }
              else x)) =
              (normaliseUsers now stored).1.map (fun u => u.username) := by
            refine List.map_congr_left (fun x _ => ?_)
            by_cases hx : x.username = m
            · simp [Function.comp, hx]
            · simp [Function.comp, hx]
          rw [he]
          exact hnd
        rw [updateFirst_username_eq_map t _ _ hnd1]
        apply usersInv_of_invN
        rw [List.map_map]
        have efuse : (normaliseUsers now stored).1.map ((fun x =>
            if x.username = t then
              { x with followers := if m ∈ x.followers then x.followers
                else x.followers ++ [m] }
            else x) ∘ (fun x =>
            if x.username = m then
              { x with following := if t ∈ x.following then x.following
                else x.following ++ [t] }
            else x)) =
            (normaliseUsers now stored).1.map (followFuse m t) := by
          have hmt' : ¬ m = t := fun hc => hmt hc.symm
          refine List.map_congr_left (fun x _ => ?_)
          by_cases hx : x.username = m
          · simp [Function.comp, followFuse, hx, hmt, hmt']
          · by_cases hx2 : x.username = t
            · simp [Function.comp, followFuse, hx, hx2, hmt, hmt']
            · simp [Function.comp, followFuse, hx, hx2]
        rw [efuse]
        refine usersInvN_follow _ m t (fun hc => hmt hc.symm) ?_ ?_ hN
        · refine ⟨me, List.mem_of_find?_eq_some hfm, ?_⟩
          have := List.find?_some hfm
          exact beq_iff_eq.mp this
        · refine ⟨tg, List.mem_of_find?_eq_some hft, ?_⟩
          have := List.find?_some hft
          exact beq_iff_eq.mp this

theorem unfollowRoute_inv (now : Nat) (stored : List RawUser)
    (m t : String) (h : usersInv stored) :
    usersInv (unfollowRoute now stored m t) := by
  rw [unfollowRoute]
  by_cases hmt : t = m
  · rw [if_pos hmt]
    exact h
  · rw [if_neg hmt]
    dsimp only
    have hN := usersInvN_of_inv now stored h
    have hnd : ((normaliseUsers now stored).1.map
        (fun u => u.username)).Nodup := hN.1
    rcases hfm : (normaliseUsers now stored).1.find?
        (fun u => u.username == m) with _ | me
    · rw [hfm]
      dsimp only
      by_cases hch : (normaliseUsers now stored).2
      · rw [if_pos hch]
        exact usersInv_of_invN _ hN
      · rw [if_neg hch]
        exact h
    · rw [hfm]
      rcases hft : (normaliseUsers now stored).1.find?
          (fun u => u.username == t) with _ | tg
      · rw [hft]
        dsimp only
        by_cases hch : (normaliseUsers now stored).2
        · rw [if_pos hch]
          exact usersInv_of_invN _ hN
        · rw [if_neg hch]
          exact h
      · rw [hft]
        dsimp only
        rw [updateFirst_username_eq_map m _ _ hnd]
        have hnd1 : (((normaliseUsers now stored).1.map (fun x =>
            if x.username = m then
              { x with following := x.following.filter (fun y => y ≠ t) }
            else x)).map (fun u => u.username)).Nodup := by
          rw [List.map_map]
          have he : (normaliseUsers now stored).1.map ((fun u =>
              u.username) ∘ (fun x =>
              if x.username = m then
                { x with following := x.following.filter (fun y => y ≠ t) }
              else x)) =
              (normaliseUsers now stored).1.map (fun u => u.username) := by
            refine List.map_congr_left (fun x _ => ?_)
            by_cases hx : x.username = m
            · simp [Function.comp, hx]
            · simp [Function.comp, hx]
          rw [he]
          exact hnd
        rw [updateFirst_username_eq_map t _ _ hnd1]
        apply usersInv_of_invN
        rw [List.map_map]
        have hmt' : ¬ m = t := fun hc => hmt hc.symm
        have efuse : (normaliseUsers now stored).1.map ((fun x =>
            if x.username = t then
              { x with followers := x.followers.filter (fun y => y ≠ m) }
            else x) ∘ (fun x =>
            if x.username = m then
              { x with following := x.following.filter (fun y => y ≠ t) }
            else x)) =
            (normaliseUsers now stored).1.map (unfollowFuse m t) := by
          refine List.map_congr_left (fun x _ => ?_)
          by_cases hx : x.username = m
          · simp [Function.comp, unfollowFuse, hx, hmt, hmt']
          · by_cases hx2 : x.username = t
            · simp [Function.comp, unfollowFuse, hx, hx2, hmt, hmt']
            · simp [Function.comp, unfollowFuse, hx, hx2]
        rw [efuse]
        exact usersInvN_unfollow _ m t hmt' hN

theorem setBannedRoute_inv (now : Nat) (stored : List RawUser)
    (username : String) (b : Bool) (h : usersInv stored) :
    usersInv (setBannedRoute now stored username b) := by
  rw [setBannedRoute]
  have hN := usersInvN_of_inv now stored h
  have hnd : ((normaliseUsers now stored).1.map
      (fun u => u.username)).Nodup := hN.1
  rcases hf : (normaliseUsers now stored).1.find?
      (fun u => u.username == username) with _ | u0
  · rw [hf]
    dsimp only
    by_cases hch : (normaliseUsers now stored).2
    · rw [if_pos hch]
      exact usersInv_of_invN _ hN
    · rw [if_neg hch]
      exact h
  · rw [hf]
    dsimp only
    rw [updateFirst_username_eq_map username _ _ hnd]
    apply usersInv_of_invN
    refine usersInvN_map_fields _ _ ?_ ?_ ?_ hN <;>
      intro u <;> by_cases hu : u.username = username <;> simp [hu]

theorem makeAdminRoute_inv (now : Nat) (stored : List RawUser)
    (username : String) (h : usersInv stored) :
    usersInv (makeAdminRoute now stored username) := by
  rw [makeAdminRoute]
  have hN := usersInvN_of_inv now stored h
  have hnd : ((normaliseUsers now stored).1.map
      (fun u => u.username)).Nodup := hN.1
  rcases hf : (normaliseUsers now stored).1.find?
      (fun u => u.username == username) with _ | u0
  · rw [hf]
    dsimp only
    by_cases hch : (normaliseUsers now stored).2
    · rw [if_pos hch]
      exact usersInv_of_invN _ hN
    · rw [if_neg hch]
      exact h
  · rw [hf]
    dsimp only
    rw [updateFirst_username_eq_map username _ _ hnd]
    apply usersInv_of_invN
    refine usersInvN_map_fields _ _ ?_ ?_ ?_ hN <;>
      intro u <;> by_cases hu : u.username = username <;> simp [hu]

theorem normUsersRoute_inv (now : Nat) (stored : List RawUser)
    (h : usersInv stored) : usersInv (normUsersRoute now stored) := by
  rw [normUsersRoute]
  rcases hw : (normaliseUsersW now stored).2 with _ | ⟨w, ws⟩
  · exact h
  · exact usersInv_of_invN _ (usersInvN_of_inv now stored h)

theorem registerRoute_inv (now : Nat) (stored : List RawUser)
    (username email password password2 : String) (h : usersInv stored) :
    usersInv (registerRoute now stored username email password
      password2).1 := by
  rw [registerRoute]
  by_cases h1 : username = "" ∨ password = "" ∨ password2 = ""
  · rw [if_pos h1]
    exact h
  · rw [if_neg h1]
    by_cases h2 : password ≠ password2
    · rw [if_pos h2]
      exact h
    · rw [if_neg h2]
      dsimp only
      have hN := usersInvN_of_inv now stored h
      rcases hany : (normaliseUsers now stored).1.any
          (fun u => u.username == username) with _ | _
      · simp only [Bool.false_eq_true, if_false]
        apply usersInv_of_invN
        refine usersInvN_append_fresh _ _ hN ?_ rfl rfl
        intro a ha
        have := List.any_eq_false.mp hany a ha
        simpa using this
      · simp only [if_true]
        by_cases hch : (normaliseUsers now stored).2
        · rw [if_pos hch]
          exact usersInv_of_invN _ hN
        · rw [if_neg hch]
          exact h

theorem applyUserOp_inv (stored : List RawUser) (op : UserOp)
    (h : usersInv stored) : usersInv (applyUserOp stored op) := by
  cases op with
  | register now u e p p2 => exact registerRoute_inv now stored u e p p2 h
  | follow now m t => exact followRoute_inv now stored m t h
  | unfollow now m t => exact unfollowRoute_inv now stored m t h
  | setBanned now u b => exact setBannedRoute_inv now stored u b h
  | makeAdmin now u => exact makeAdminRoute_inv now stored u h
  | norm now => exact normUsersRoute_inv now stored h

theorem runUserOps_inv_aux (ops : List UserOp) :
    ∀ stored : List RawUser, usersInv stored →
      usersInv (ops.foldl applyUserOp stored) := by
  induction ops with
  | nil =>
    intro stored h
    exact h
  | cons op rest ih =>
    intro stored h
    exact ih (applyUserOp stored op) (applyUserOp_inv stored op h)

theorem usersInv_nil : usersInv [] := by
  refine ⟨List.nodup_nil, ?_, ?_⟩
  · intro a ha
    cases ha
  · intro a ha
    cases ha

/-- C2: starting from the initial (empty) users store, after any
sequence of core user operations (register, follow, unfollow,
ban/unban, promote-to-admin, load-normalization), any two stored users
with distinct usernames satisfy the symmetry `A ∈ B.followers ⇔
B ∈ A.following`; and every core operation preserves the full
follow-graph invariant (unique usernames, relationship names all
registered, symmetry) on any collection satisfying it. -/
theorem follow_symmetry_invariant :
    (∀ ops : List UserOp, ∀ a ∈ runUserOps ops, ∀ b ∈ runUserOps ops,
      a.username ≠ b.username →
      (a.username ∈ rFollowers b ↔ b.username ∈ rFollowing a)) ∧
    (∀ (stored : List RawUser) (op : UserOp), usersInv stored →
      usersInv (applyUserOp stored op)) := by
  have hrun : ∀ ops : List UserOp, usersInv (runUserOps ops) :=
    fun ops => runUserOps_inv_aux ops [] usersInv_nil
  exact ⟨fun ops a ha b hb hne => (hrun ops).2.2 a ha b hb hne,
    applyUserOp_inv⟩

/-- C2 witness: alice registers, bob registers, alice follows bob; in
the stored collection alice appears in bob's followers exactly as bob
appears in alice's following. -/
theorem follow_symmetry_invariant_witness :
    ((⟨"alice", some "", some "pw", some 1, some true, some false,
        some [], some ["bob"]⟩ : RawUser) ∈
      runUserOps [UserOp.register 1 "alice" "" "pw" "pw",
        UserOp.register 2 "bob" "" "pw" "pw",
        UserOp.follow 3 "alice" "bob"]) ∧
    ((⟨"bob", some "", some "pw", some 2, some false, some false,
        some ["alice"], some []⟩ : RawUser) ∈
      runUserOps [UserOp.register 1 "alice" "" "pw" "pw",
        UserOp.register 2 "bob" "" "pw" "pw",
        UserOp.follow 3 "alice" "bob"]) ∧
    ((⟨"alice", some "", some "pw", some 1, some true, some false,
        some [], some ["bob"]⟩ : RawUser).username ∈
      rFollowers ⟨"bob", some "", some "pw", some 2, some false,
        some false, some ["alice"], some []⟩ ↔
    (⟨"bob", some "", some "pw", some 2, some false, some false,
        some ["alice"], some []⟩ : RawUser).username ∈
      rFollowing ⟨"alice", some "", some "pw", some 1, some true,
        some false, some [], some ["bob"]⟩) :=
  ⟨by decide, by decide,
   follow_symmetry_invariant.1
    [UserOp.register 1 "alice" "" "pw" "pw",
     UserOp.register 2 "bob" "" "pw" "pw",
     UserOp.follow 3 "alice" "bob"]
    ⟨"alice", some "", some "pw", some 1, some true, some false,
      some [], some ["bob"]⟩ (by decide)
    ⟨"bob", some "", some "pw", some 2, some false, some false,
      some ["alice"], some []⟩ (by decide) (by decide)⟩

end FollowInvariantClaim

end JointsGalore
